import Mathlib

/-!
Verification development for the chunking-and-retrieval subsystem of the
devdocumetationrag repository (src/src/document_processor.py and
src/src/vector_database.py).

Text is modelled as `List Char` (`Str`), and the Python string primitives used
by the source (`str.split('\n\n')`, `str.split()`, `str.strip()`,
`' '.join(...)`) are given as executable definitions with the same semantics.
The tiktoken token counter is an external dependency injected into the
processor; it is modelled as a parameter `tok : Str → Nat`, and the source's
own degraded-mode fallback (`len(text.split()) * 2`) is given concretely as
`count_tokens_fallback`.
-/

abbrev Str := List Char

/-- The whitespace test used by `str.strip()` / `str.split()` for the ASCII
whitespace characters occurring in the processed documents. -/
def isWS (c : Char) : Bool :=
  c = ' ' || c = '\t' || c = '\n' || c = '\r'

/-- Remove leading whitespace (left part of Python `str.strip()`). -/
def trimL : Str → Str
  | [] => []
  | c :: cs => if isWS c then trimL cs else c :: cs

/-- Remove trailing whitespace (right part of Python `str.strip()`). -/
def trimR : Str → Str
  | [] => []
  | c :: cs => if (trimR cs).isEmpty && isWS c then [] else c :: trimR cs

/-- Python `str.strip()`: remove leading and trailing whitespace. -/
def trim (s : Str) : Str := trimL (trimR s)

/-- Helper for `words`: prepend the non-whitespace character `c` to the word
decomposition `ws` of `cs`, starting a fresh word exactly when `cs` does not
continue the current word. -/
def wordsCons (c : Char) (cs : Str) (ws : List Str) : List Str :=
  match cs with
  | [] => [[c]]
  | d :: _ =>
    if isWS d then [c] :: ws
    else
      match ws with
      | [] => [[c]]
      | w :: ws2 => (c :: w) :: ws2

/-- Python `str.split()` with no separator: split on runs of whitespace,
discarding empty pieces. -/
def words : Str → List Str
  | [] => []
  | c :: cs => if isWS c then words cs else wordsCons c cs (words cs)

/-- Python `' '.join(ws)`. -/
def joinSp : List Str → Str
  | [] => []
  | [w] => w
  | w :: v :: ws => w ++ ' ' :: joinSp (v :: ws)

/-- Python `text.split('\n\n')`: split on non-overlapping occurrences of the
two-newline separator, scanning left to right, keeping empty pieces. -/
def splitPara : Str → List Str
  | [] => [[]]
  | '\n' :: '\n' :: rest => [] :: splitPara rest
  | c :: rest =>
    match splitPara rest with
    | [] => [[c]]
    | p :: ps => (c :: p) :: ps

/-- Inverse of `splitPara`: rejoin paragraphs with the blank-line separator. -/
def joinParas : List Str → Str
  | [] => []
  | [p] => p
  | p :: q :: ps => p ++ '\n' :: '\n' :: joinParas (q :: ps)

/-- The degraded-mode token counter from `DocumentProcessor.count_tokens`:
`len(text.split()) * 2`, used by the source when tiktoken fails. -/
def count_tokens_fallback (s : Str) : Nat := (words s).length * 2

/-- `DocumentProcessor.split_into_sentences`, inner scan: accumulate characters
and emit the stripped accumulator whenever a terminal character is seen. -/
def sentencesAux : Str → Str → List Str
  | cur, [] => if trim cur = [] then [] else [trim cur]
  | cur, c :: rest =>
    if c = '.' || c = '!' || c = '?' || c = '\n' then
      (if trim (cur ++ [c]) = [] then [] else [trim (cur ++ [c])]) ++
        sentencesAux [] rest
    else
      sentencesAux (cur ++ [c]) rest

/-- `DocumentProcessor.split_into_sentences`. -/
def split_into_sentences (text : Str) : List Str := sentencesAux [] text

/-- The overlap computation repeated inline in `create_chunks`: take the last
`min(len(words), 50)` whitespace-delimited words of the flushed chunk and join
them with single spaces. -/
def overlapText (s : Str) : Str :=
  let ws := words s
  let n := min ws.length 50
  joinSp (ws.drop (ws.length - n))

/-- The loop state of `DocumentProcessor.create_chunks`. -/
structure ChunkState where
  chunks : List Str
  current_chunk : Str
  current_tokens : Nat
deriving Repr, DecidableEq

/-- The body of the sentence loop inside `create_chunks` (lines 174-190 of
document_processor.py). -/
def stepSentence (S : Nat) (tok : Str → Nat) (st : ChunkState) (sentence : Str) :
    ChunkState :=
  let sentence_tokens := tok sentence
  if st.current_tokens + sentence_tokens > S then
    if st.current_chunk ≠ [] then
      let nc := overlapText st.current_chunk ++ ' ' :: sentence
      ⟨st.chunks ++ [trim st.current_chunk], nc, tok nc⟩
    else
      ⟨st.chunks, sentence, sentence_tokens⟩
  else
    ⟨st.chunks,
     (if st.current_chunk ≠ [] then st.current_chunk ++ ' ' :: sentence else sentence),
     st.current_tokens + sentence_tokens⟩

/-- The body of the paragraph loop inside `create_chunks` (lines 160-207 of
document_processor.py). -/
def stepParagraph (S : Nat) (tok : Str → Nat) (st : ChunkState) (paragraph0 : Str) :
    ChunkState :=
  let paragraph := trim paragraph0
  if paragraph = [] then st
  else
    let paragraph_tokens := tok paragraph
    if paragraph_tokens > S then
      let st1 :=
        if st.current_chunk ≠ [] then
          ChunkState.mk (st.chunks ++ [trim st.current_chunk]) [] 0
        else st
      (split_into_sentences paragraph).foldl (stepSentence S tok) st1
    else if st.current_tokens + paragraph_tokens ≤ S then
      ⟨st.chunks,
       (if st.current_chunk ≠ [] then st.current_chunk ++ '\n' :: '\n' :: paragraph
        else paragraph),
       st.current_tokens + paragraph_tokens⟩
    else if st.current_chunk ≠ [] then
      let nc := overlapText st.current_chunk ++ '\n' :: '\n' :: paragraph
      ⟨st.chunks ++ [trim st.current_chunk], nc, tok nc⟩
    else
      ⟨st.chunks, paragraph, paragraph_tokens⟩

/-- `DocumentProcessor.create_chunks`: greedy paragraph packing with
sentence-level fallback and overlap injection, parametrised by the configured
chunk size `S` and the injected token counter `tok`. -/
def create_chunks (S : Nat) (tok : Str → Nat) (text : Str) : List Str :=
  let st := (splitPara text).foldl (stepParagraph S tok) ⟨[], [], 0⟩
  if st.current_chunk ≠ [] then st.chunks ++ [trim st.current_chunk] else st.chunks

/-- Defaults of `config/settings.py` (values of `Config.CHUNK_SIZE` and
`Config.CHUNK_OVERLAP` when the environment does not override them). -/
def Config.CHUNK_SIZE : Nat := 1000

def Config.CHUNK_OVERLAP : Nat := 200

/-- The configuration carried by a `DocumentProcessor` instance, with the
injected tokenizer. -/
structure DocumentProcessor where
  chunk_size : Nat
  chunk_overlap : Nat
  tok : Str → Nat

/-- `DocumentProcessor.__init__`: positive arguments are kept, non-positive
ones fall back to the `Config` defaults. -/
def DocumentProcessor.init (chunk_size chunk_overlap : Nat) (tok : Str → Nat) :
    DocumentProcessor :=
  { chunk_size := if chunk_size > 0 then chunk_size else Config.CHUNK_SIZE
    chunk_overlap := if chunk_overlap > 0 then chunk_overlap else Config.CHUNK_OVERLAP
    tok := tok }

/-- `create_chunks` as a method: it reads `self.chunk_size` and the tokenizer,
and nothing else of the instance state. -/
def DocumentProcessor.createChunks (dp : DocumentProcessor) (text : Str) : List Str :=
  create_chunks dp.chunk_size dp.tok text

/-- Ghost instrumentation of `create_chunks`: how the chunk currently being
accumulated was started. -/
inductive Origin where
  | fresh : Origin
  | seeded : Str → Origin
deriving Repr, DecidableEq

/-- The overlap text injected at the start of the chunk, if any. -/
def Origin.pref : Origin → Str
  | .fresh => []
  | .seeded p => p

/-- Ghost-instrumented accumulating chunk: its origin, the list of
(separator, piece) pairs appended after the origin text (each piece is a
stripped paragraph or sentence of the input), and the tracked token count. -/
structure ACur where
  origin : Origin
  pieces : List (Str × Str)
  tokens : Nat
deriving Repr, DecidableEq

/-- The accumulated chunk text: origin text followed by the separator-joined
pieces.  This mirrors the string concatenations done by `create_chunks`. -/
def ACur.render (c : ACur) : Str :=
  c.origin.pref ++ (c.pieces.map (fun sp => sp.1 ++ sp.2)).flatten

/-- The text emitted for this chunk when it is flushed:
`chunks.append(current_chunk.strip())`. -/
def ACur.content (c : ACur) : Str := trim c.render

/-- Ghost-instrumented loop state of `create_chunks`. -/
structure AState where
  done : List ACur
  cur : Option ACur
deriving Repr, DecidableEq

/-- Instrumented body of the sentence loop of `create_chunks`; the string and
token computations are those of `stepSentence`. -/
def aStepSentence (S : Nat) (tok : Str → Nat) (st : AState) (sentence : Str) :
    AState :=
  match st.cur with
  | none => ⟨st.done, some ⟨.fresh, [([], sentence)], tok sentence⟩⟩
  | some c =>
    if c.tokens + tok sentence > S then
      let pre := overlapText c.render
      ⟨st.done ++ [c], some ⟨.seeded pre, [([' '], sentence)], tok (pre ++ ' ' :: sentence)⟩⟩
    else
      ⟨st.done, some ⟨c.origin, c.pieces ++ [([' '], sentence)], c.tokens + tok sentence⟩⟩

/-- Instrumented body of the paragraph loop of `create_chunks`; the string and
token computations are those of `stepParagraph`. -/
def aStepParagraph (S : Nat) (tok : Str → Nat) (st : AState) (paragraph0 : Str) :
    AState :=
  let paragraph := trim paragraph0
  if paragraph = [] then st
  else
    let paragraph_tokens := tok paragraph
    if paragraph_tokens > S then
      let st1 : AState :=
        match st.cur with
        | none => st
        | some c => ⟨st.done ++ [c], none⟩
      (split_into_sentences paragraph).foldl (aStepSentence S tok) st1
    else
      match st.cur with
      | none => ⟨st.done, some ⟨.fresh, [([], paragraph)], paragraph_tokens⟩⟩
      | some c =>
        if c.tokens + paragraph_tokens ≤ S then
          ⟨st.done, some ⟨c.origin, c.pieces ++ [(['\n', '\n'], paragraph)],
            c.tokens + paragraph_tokens⟩⟩
        else
          let pre := overlapText c.render
          ⟨st.done ++ [c], some ⟨.seeded pre, [(['\n', '\n'], paragraph)],
            tok (pre ++ '\n' :: '\n' :: paragraph)⟩⟩

/-- Ghost-instrumented `create_chunks`: same traversal, remembering for every
emitted chunk how it was seeded and which pieces were packed into it. -/
def createChunksAnn (S : Nat) (tok : Str → Nat) (text : Str) : List ACur :=
  let st := (splitPara text).foldl (aStepParagraph S tok) ⟨[], none⟩
  match st.cur with
  | none => st.done
  | some c => st.done ++ [c]

/-- The pieces a single raw paragraph contributes to the chunking: nothing if
blank, its sentences if oversized, otherwise the stripped paragraph itself. -/
def pieceListOf (S : Nat) (tok : Str → Nat) (p0 : Str) : List Str :=
  if trim p0 = [] then []
  else if tok (trim p0) > S then split_into_sentences (trim p0)
  else [trim p0]

/-- The pieces that `create_chunks` distributes over the chunks, in document
order: every stripped non-empty paragraph, replaced by its sentences when its
own token count exceeds the budget. -/
def piecesOf (S : Nat) (tok : Str → Nat) (text : Str) : List Str :=
  (splitPara text).flatMap (pieceListOf S tok)

/-- All pieces carried by a state, in order, counting the accumulating chunk. -/
def AState.allPieces (st : AState) : List Str :=
  (st.done.map (fun c => c.pieces.map (fun sp => sp.2))).flatten ++
    (match st.cur with
     | none => []
     | some c => c.pieces.map (fun sp => sp.2))

/-- The chunk list a state abstracts to, counting the accumulating chunk. -/
def AState.annList (st : AState) : List ACur :=
  st.done ++ (match st.cur with | none => [] | some c => [c])

/-- Projection from the instrumented state to the plain loop state of
`create_chunks`. -/
def absA (st : AState) : ChunkState :=
  ⟨st.done.map ACur.content,
   (match st.cur with | none => [] | some c => c.render),
   (match st.cur with | none => 0 | some c => c.tokens)⟩

/-- The chunk metadata built by `DocumentProcessor.create_chunk_metadata`.
The `id` field is a fresh uuid4 in the source; uuid generation is external
nondeterminism and is injected as a parameter below. -/
structure Metadata where
  id : Str
  chunk_id : Nat
  source : Str
  source_path : Str
  tokens : Nat
  characters : Nat
deriving Repr, DecidableEq

/-- `os.path.basename`: the final path component. -/
def basename (s : Str) : Str :=
  (s.reverse.takeWhile (fun c => c ≠ '/')).reverse

/-- `DocumentProcessor.create_chunk_metadata`, with the uuid4 value injected
as `fresh`.  `tokens` and `characters` are recomputed from the chunk text. -/
def create_chunk_metadata (tok : Str → Nat) (fresh : Str) (chunk : Str)
    (chunk_id : Nat) (source_file : Str) : Metadata :=
  { id := fresh
    chunk_id := chunk_id
    source := basename source_file
    source_path := source_file
    tokens := tok chunk
    characters := chunk.length }

/-- Failure modes of the ingestion path.  `notFound` is the re-raised
`FileNotFoundError`; `emptyInput` is the `ValueError` for a blank file
(re-raised wrapped in a generic `Exception` by `read_file`); `statsError`
models the `ValueError` that `min()` over an empty sequence would raise in the
statistics block of `process_file`. -/
inductive ProcErr where
  | notFound : ProcErr
  | emptyInput : ProcErr
  | statsError : ProcErr
deriving Repr, DecidableEq

/-- `DocumentProcessor.read_file`, with the filesystem injected as a partial
map from paths to contents. -/
def read_file (fs : Str → Option Str) (file_path : Str) : Except ProcErr Str :=
  match fs file_path with
  | none => .error .notFound
  | some content =>
    if trim content = [] then .error .emptyInput else .ok content

/-- The per-chunk record returned by `process_file`. -/
structure ChunkData where
  content : Str
  metadata : Metadata
deriving Repr, DecidableEq

/-- Python `enumerate` starting at `n`. -/
def enumFrom (n : Nat) : List α → List (Nat × α)
  | [] => []
  | x :: xs => (n, x) :: enumFrom (n + 1) xs

/-- `DocumentProcessor.process_file`: read the file, chunk it, attach
metadata.  The uuid4 calls are injected as `fresh`, indexed by emission order.
The final `if` mirrors the fact that the statistics block of the source calls
`min`/`max` over the chunk token counts and would raise on an empty chunk
list (that error, like every other, is re-raised by the surrounding
`except` block). -/
def process_file (S : Nat) (tok : Str → Nat) (fs : Str → Option Str)
    (fresh : Nat → Str) (file_path : Str) : Except ProcErr (List ChunkData) :=
  match read_file fs file_path with
  | .error e => .error e
  | .ok content =>
    let chunks := create_chunks S tok content
    let processed := (enumFrom 0 chunks).map (fun ic =>
      ChunkData.mk ic.2 (create_chunk_metadata tok (fresh ic.1) ic.2 ic.1 file_path))
    if processed.isEmpty then .error .statsError else .ok processed

/-! ### Vector database (src/src/vector_database.py)

The sentence-transformers embedding model and the ChromaDB collection are
external services; the embedding function and the collection query are
injected as parameters that may fail (`Except`), mirroring the broad
`try`/`except` wrappers of the source.  The persisted collection itself is
modelled from the spec (section 4.3) as a list of records. -/

/-- A stored vector record: `(id, content, embedding, metadata)`. -/
structure VRecord where
  id : Str
  content : Str
  embedding : List Rat
  metadata : Metadata
deriving Repr, DecidableEq

/-- Modelled from the spec: the persisted ChromaDB collection, a list of
vector records (the backing store itself is not part of src/). -/
abbrev Collection := List VRecord

/-- The flattened search result returned by
`VectorDatabase.search_similar_documents`. -/
structure SearchOut where
  documents : List Str
  metadatas : List Metadata
  distances : List Rat
deriving Repr, DecidableEq

/-- The raw, list-of-lists shaped answer of `collection.query`. -/
structure RawQueryResult where
  documents : List (List Str)
  metadatas : List (List Metadata)
  distances : List (List Rat)
deriving Repr, DecidableEq

/-- The flattening `results[k][0] if results[k] else []` applied per field. -/
def flattenHead : List (List α) → List α
  | [] => []
  | d :: _ => d

/-- `VectorDatabase.search_similar_documents`.  `embed` is
`generate_embeddings` (the sentence-transformers call, may fail), `collQuery`
is `collection.query` (may fail), `count` is `collection.count()`.  Every
failure path is caught by the source and collapsed to the empty result. -/
def search_similar_documents (embed : List Str → Except Unit (List (List Rat)))
    (collQuery : List Rat → Nat → Except Unit RawQueryResult)
    (count : Nat) (query : Str) (n_results : Nat) : SearchOut :=
  if trim query = [] then ⟨[], [], []⟩
  else
    match embed [query] with
    | .error _ => ⟨[], [], []⟩
    | .ok [] => ⟨[], [], []⟩
    | .ok (query_embedding :: _) =>
      match collQuery query_embedding (min n_results count) with
      | .error _ => ⟨[], [], []⟩
      | .ok results =>
        ⟨flattenHead results.documents,
         flattenHead results.metadatas,
         flattenHead results.distances⟩

/-- Modelled from the spec: `collection.update` of the backing store —
replaces all fields for an existing id, fails (`NotFound`) when the id is
absent, leaving the collection unchanged. -/
def collectionUpdate (c : Collection) (doc_id : Str) (content : Str)
    (emb : List Rat) (md : Metadata) : Except Unit Collection :=
  if c.any (fun r => r.id = doc_id) then
    .ok (c.map (fun r => if r.id = doc_id then ⟨doc_id, content, emb, md⟩ else r))
  else .error ()

/-- `VectorDatabase.update_document`: embed the new content, update the
record; any failure is caught and reported as `false`. -/
def update_document (embed : List Str → Except Unit (List (List Rat)))
    (c : Collection) (doc_id : Str) (content : Str) (md : Metadata) :
    Collection × Bool :=
  match embed [content] with
  | .error _ => (c, false)
  | .ok [] => (c, false)
  | .ok (e :: _) =>
    match collectionUpdate c doc_id content e md with
    | .error _ => (c, false)
    | .ok c2 => (c2, true)

/-- Modelled from the spec: `collection.add` of the backing store — inserts
all records of the batch, failing as a whole (duplicate id or mismatched
field lists), never partially. -/
def collectionAdd (c : Collection) (documents : List Str)
    (embeddings : List (List Rat)) (metadatas : List Metadata)
    (ids : List Str) : Except Unit Collection :=
  if ids.any (fun i => c.any (fun r => r.id = i)) then .error ()
  else if documents.length = embeddings.length ∧ embeddings.length = metadatas.length
      ∧ metadatas.length = ids.length then
    .ok (c ++ ((documents.zip embeddings).zip (metadatas.zip ids)).map
      (fun de_mi => ⟨de_mi.2.2, de_mi.1.1, de_mi.1.2, de_mi.2.1⟩))
  else .error ()

/-- `VectorDatabase.add_documents`: an empty chunk list short-circuits to
`False` before anything is embedded or stored; otherwise embed the contents
and add the batch, reporting failures as `false`. -/
def add_documents (embed : List Str → Except Unit (List (List Rat)))
    (c : Collection) (chunks : List ChunkData) : Collection × Bool :=
  if chunks.isEmpty then (c, false)
  else
    let documents := chunks.map (fun ch => ch.content)
    let metadatas := chunks.map (fun ch => ch.metadata)
    let ids := chunks.map (fun ch => ch.metadata.id)
    match embed documents with
    | .error _ => (c, false)
    | .ok embeddings =>
      match collectionAdd c documents embeddings metadatas ids with
      | .error _ => (c, false)
      | .ok c2 => (c2, true)

/-- Fallback chunk used with `List.getD` on annotated chunk lists. -/
def dfltChunk : ACur := ⟨Origin.fresh, [], 0⟩

/-- Concrete document `"a b c d\n\ne f g h\n\ni j k l"`: three paragraphs of
four words each, used to evaluate the chunker at the degraded-mode counter. -/
def txtThreeParas : Str :=
  ['a', ' ', 'b', ' ', 'c', ' ', 'd', '\n', '\n', 'e', ' ', 'f', ' ', 'g', ' ',
   'h', '\n', '\n', 'i', ' ', 'j', ' ', 'k', ' ', 'l']

/-- Concrete document `"a b\n\nc d"`: two paragraphs of two words each. -/
def txtTwoParas : Str := ['a', ' ', 'b', '\n', '\n', 'c', ' ', 'd']

/-- Fallback metadata record for `List.getD`. -/
def dfltMeta : Metadata := ⟨[], 0, [], [], 0, 0⟩

/-- Fallback chunk record for `List.getD`. -/
def dfltChunkData : ChunkData := ⟨[], dfltMeta⟩

/-- A one-record collection used to evaluate the store operations. -/
def sampleCollection : Collection := [⟨['x'], ['c'], [], dfltMeta⟩]

/-- A two-file filesystem used to evaluate the ingestion path: `"a"` holds a
non-blank file, `"b"` a whitespace-only file, everything else is missing. -/
def sampleFs : Str → Option Str := fun p =>
  if p = ['a'] then some ['x']
  else if p = ['b'] then some [' '] else none

/-- Structural well-formedness of an accumulating chunk: it holds at least one
piece and every piece is a non-empty string. -/
def GoodCur (c : ACur) : Prop := c.pieces ≠ [] ∧ ∀ sp ∈ c.pieces, sp.2 ≠ ([] : Str)

/-- Structural well-formedness of the instrumented loop state. -/
def GoodState (st : AState) : Prop := ∀ c, st.cur = some c → GoodCur c

/-- The overlap relation between adjacent chunks: whenever the later chunk was
seeded by a split, its seed is the overlap text of the earlier chunk. -/
def chunkSeedRel (a b : ACur) : Prop :=
  ∀ pre, b.origin = Origin.seeded pre → pre = overlapText a.content

/-- A seeded chunk carries its seed in front of a first piece that is joined
by the single-space or blank-line separator used at the seeding site. -/
def SeedSepOK (c : ACur) : Prop :=
  ∀ pre, c.origin = Origin.seeded pre →
    ∃ sep p rest, c.pieces = (sep, p) :: rest ∧ (sep = [' '] ∨ sep = ['\n', '\n'])

/-- Invariant for the overlap property: adjacent chunks (including the one
still accumulating) satisfy the seed relation, and every seeded chunk has a
well-formed first separator. -/
def ChainInv (st : AState) : Prop :=
  List.Chain' chunkSeedRel st.annList ∧ ∀ c ∈ st.annList, SeedSepOK c

/-- Token accounting invariant of the chunking loop, for a token counter that
is subadditive across the separators used and non-increasing under strip:
the tracked count dominates the true count of the accumulated text, and a
fresh (unseeded) chunk either respects the budget or is a single piece that
alone exceeds it. -/
def TokInv (S : Nat) (tok : Str → Nat) (st : AState) : Prop :=
  (∀ c, st.cur = some c → tok c.render ≤ c.tokens ∧
    (c.origin = Origin.fresh →
      c.tokens ≤ S ∨ ∃ s, c.pieces = [(([] : Str), s)] ∧ S < tok s)) ∧
  (∀ c ∈ st.done, tok c.content ≤ S ∨ (∃ p, c.origin = Origin.seeded p) ∨
    ∃ s, c.pieces = [(([] : Str), s)] ∧ S < tok s)

/-! ### Lemmas about the string primitives -/

theorem trimL_eq_nil_iff (s : Str) : trimL s = [] ↔ ∀ c ∈ s, isWS c = true := by
  induction s with
  | nil => simp [trimL]
  | cons c cs ih =>
    by_cases h : isWS c = true
    · simp [trimL, h, ih]
    · simp [trimL, h]

theorem trimL_head (s : Str) (c : Char) (cs : Str) (h : trimL s = c :: cs) :
    isWS c = false := by
  induction s with
  | nil => simp [trimL] at h
  | cons d ds ih =>
    by_cases hd : isWS d = true
    · exact ih (by simpa [trimL, hd] using h)
    · simp [trimL, hd] at h
      simp [← h.1, Bool.eq_false_iff, hd]

theorem trimR_decomp (s : Str) :
    ∃ t, s = trimR s ++ t ∧ ∀ c ∈ t, isWS c = true := by
  induction s with
  | nil => exact ⟨[], rfl, by simp⟩
  | cons c cs ih =>
    obtain ⟨t, hcs, ht⟩ := ih
    by_cases h : (trimR cs).isEmpty && isWS c
    · refine ⟨c :: cs, by simp [trimR, h], ?_⟩
      simp only [Bool.and_eq_true, List.isEmpty_iff] at h
      intro x hx
      rcases List.mem_cons.mp hx with hx | hx
      · exact hx ▸ h.2
      · rw [hcs, h.1, List.nil_append] at hx
        exact ht x hx
    · exact ⟨t, by rw [trimR]; simp [h]; exact hcs, ht⟩

theorem trimR_eq_nil_iff (s : Str) : trimR s = [] ↔ ∀ c ∈ s, isWS c = true := by
  induction s with
  | nil => simp [trimR]
  | cons c cs ih =>
    by_cases h : ((trimR cs).isEmpty && isWS c) = true
    · simp only [Bool.and_eq_true, List.isEmpty_iff] at h
      rw [trimR, if_pos (by simp [h.1, h.2])]
      simp only [true_iff]
      intro x hx
      rcases List.mem_cons.mp hx with hx | hx
      · exact hx ▸ h.2
      · exact ih.mp h.1 x hx
    · simp only [Bool.and_eq_true, List.isEmpty_iff, not_and_or] at h
      have hcond : ¬ (((trimR cs).isEmpty && isWS c) = true) := by
        simp only [Bool.and_eq_true, List.isEmpty_iff, not_and_or]
        exact h
      rw [trimR, if_neg hcond]
      simp only [List.cons_ne_nil, false_iff, not_forall]
      rcases h with h | h
      · have : ¬ (∀ c ∈ cs, isWS c = true) := fun hh => h (ih.mpr hh)
        push_neg at this
        obtain ⟨x, hx, hxw⟩ := this
        exact ⟨x, List.mem_cons_of_mem _ hx, by simp [hxw]⟩
      · exact ⟨c, List.mem_cons_self c cs, by simp [h]⟩

theorem trim_eq_nil_iff (s : Str) : trim s = [] ↔ ∀ c ∈ s, isWS c = true := by
  constructor
  · intro h
    obtain ⟨t, hs, ht⟩ := trimR_decomp s
    have hR : ∀ c ∈ trimR s, isWS c = true := (trimL_eq_nil_iff _).mp h
    intro c hc
    rw [hs] at hc
    rcases List.mem_append.mp hc with hc | hc
    · exact hR c hc
    · exact ht c hc
  · intro h
    have : trimR s = [] := (trimR_eq_nil_iff s).mpr h
    simp [trim, this, trimL]

theorem exists_nonWS_of_trim_ne_nil (s : Str) (h : trim s ≠ []) :
    ∃ c ∈ trim s, isWS c = false := by
  rcases htl : trim s with _ | ⟨c, cs⟩
  · exact absurd htl h
  · exact ⟨c, htl ▸ List.mem_cons_self c cs, trimL_head (trimR s) c cs htl⟩

theorem words_cons_ws (c : Char) (cs : Str) (h : isWS c = true) :
    words (c :: cs) = words cs := by
  simp [words, h]

theorem words_cons_nws (c : Char) (cs : Str) (h : isWS c = false) :
    words (c :: cs) = wordsCons c cs (words cs) := by
  simp [words, h]

theorem wordsCons_nil (c : Char) (ws : List Str) : wordsCons c [] ws = [[c]] := rfl

theorem wordsCons_cons_ws (c d : Char) (cs2 : Str) (ws : List Str)
    (h : isWS d = true) : wordsCons c (d :: cs2) ws = [c] :: ws := by
  simp [wordsCons, h]

theorem wordsCons_cons_nws (c d : Char) (cs2 : Str) (w : Str) (ws2 : List Str)
    (h : isWS d = false) : wordsCons c (d :: cs2) (w :: ws2) = (c :: w) :: ws2 := by
  simp [wordsCons, h]

theorem wordsCons_shape (c : Char) (cs : Str) (ws : List Str) :
    ∃ w t, wordsCons c cs ws = (c :: w) :: t := by
  rcases cs with _ | ⟨d, cs2⟩
  · exact ⟨[], [], rfl⟩
  · cases hd : isWS d with
    | true => exact ⟨[], ws, wordsCons_cons_ws c d cs2 ws hd⟩
    | false =>
      rcases ws with _ | ⟨w, ws2⟩
      · exact ⟨[], [], by simp [wordsCons, hd]⟩
      · exact ⟨w, ws2, wordsCons_cons_nws c d cs2 w ws2 hd⟩

theorem words_shape (c : Char) (cs : Str) (h : isWS c = false) :
    ∃ w t, words (c :: cs) = (c :: w) :: t := by
  rw [words_cons_nws c cs h]
  exact wordsCons_shape c cs (words cs)

theorem words_append_ws (c : Char) (hc : isWS c = true) (a b : Str) :
    words (a ++ c :: b) = words a ++ words b := by
  induction a with
  | nil => exact words_cons_ws c b hc
  | cons x a ih =>
    cases hx : isWS x with
    | true =>
      rw [List.cons_append, words_cons_ws x _ hx, words_cons_ws x _ hx]
      exact ih
    | false =>
      rw [List.cons_append, words_cons_nws x _ hx, words_cons_nws x _ hx]
      rcases a with _ | ⟨d, a2⟩
      · rw [List.nil_append, words_cons_ws c b hc, wordsCons_cons_ws x c b _ hc,
          wordsCons_nil]
        rfl
      · cases hd : isWS d with
        | true =>
          rw [List.cons_append, wordsCons_cons_ws x d _ _ hd,
            wordsCons_cons_ws x d _ _ hd]
          rw [List.cons_append] at ih
          rw [ih]
          rfl
        | false =>
          obtain ⟨w2, t2, hw2⟩ := words_shape d a2 hd
          have hw : words (d :: (a2 ++ c :: b)) = (d :: w2) :: (t2 ++ words b) := by
            rw [List.cons_append] at ih
            rw [ih, hw2, List.cons_append]
          rw [List.cons_append, hw, hw2, wordsCons_cons_nws x d _ _ _ hd,
            wordsCons_cons_nws x d _ _ _ hd]
          rfl

theorem words_allWS (s : Str) (h : ∀ c ∈ s, isWS c = true) : words s = [] := by
  induction s with
  | nil => rfl
  | cons c cs ih =>
    rw [words_cons_ws c cs (h c (List.mem_cons_self c cs))]
    exact ih (fun x hx => h x (List.mem_cons_of_mem _ hx))

theorem words_append_allWS (a t : Str) (h : ∀ c ∈ t, isWS c = true) :
    words (a ++ t) = words a := by
  rcases t with _ | ⟨c, t2⟩
  · simp
  · rw [words_append_ws c (h c (List.mem_cons_self c t2)) a t2,
      words_allWS t2 (fun x hx => h x (List.mem_cons_of_mem _ hx)), List.append_nil]

theorem words_trimL (s : Str) : words (trimL s) = words s := by
  induction s with
  | nil => rfl
  | cons c cs ih =>
    by_cases h : isWS c = true
    · simp [trimL, words, h, ih]
    · simp [trimL, h]

theorem words_trimR (s : Str) : words (trimR s) = words s := by
  obtain ⟨t, hs, ht⟩ := trimR_decomp s
  conv_rhs => rw [hs]
  exact (words_append_allWS _ t ht).symm

theorem words_trim (s : Str) : words (trim s) = words s := by
  rw [trim, words_trimL, words_trimR]

theorem words_good (s : Str) :
    ∀ w ∈ words s, w ≠ [] ∧ ∀ c ∈ w, isWS c = false := by
  induction s with
  | nil => simp [words]
  | cons c cs ih =>
    cases h : isWS c with
    | true => rw [words_cons_ws c cs h]; exact ih
    | false =>
      rw [words_cons_nws c cs h]
      rcases cs with _ | ⟨d, cs2⟩
      · simp [wordsCons_nil, h]
      · cases hd : isWS d with
        | true =>
          rw [wordsCons_cons_ws c d cs2 _ hd]
          intro w hw
          rcases List.mem_cons.mp hw with hw | hw
          · simp [hw, h]
          · exact ih w hw
        | false =>
          rcases hws : words (d :: cs2) with _ | ⟨w, ws2⟩
          · simp [wordsCons, hd, h]
          · rw [wordsCons_cons_nws c d cs2 w ws2 hd]
            intro x hx
            rcases List.mem_cons.mp hx with hx | hx
            · have hgw := ih w (hws ▸ List.mem_cons_self w ws2)
              subst hx
              refine ⟨by simp, ?_⟩
              intro y hy
              rcases List.mem_cons.mp hy with hy | hy
              · exact hy ▸ h
              · exact hgw.2 y hy
            · exact ih x (hws ▸ List.mem_cons_of_mem _ hx)

theorem words_single (w : Str) (h1 : w ≠ []) (h2 : ∀ c ∈ w, isWS c = false) :
    words w = [w] := by
  induction w with
  | nil => exact absurd rfl h1
  | cons c cs ih =>
    have hc : isWS c = false := h2 c (List.mem_cons_self c cs)
    rw [words_cons_nws c cs hc]
    rcases cs with _ | ⟨d, cs2⟩
    · rw [wordsCons_nil]
    · have hd : isWS d = false := h2 d (by simp)
      have hrec := ih (by simp) (fun x hx => h2 x (List.mem_cons_of_mem _ hx))
      rw [hrec, wordsCons_cons_nws c d cs2 _ _ hd]

theorem words_joinSp (ws : List Str)
    (h : ∀ w ∈ ws, w ≠ [] ∧ ∀ c ∈ w, isWS c = false) :
    words (joinSp ws) = ws := by
  induction ws with
  | nil => rfl
  | cons w ws ih =>
    rcases ws with _ | ⟨v, ws2⟩
    · have hw := h w (by simp)
      simpa [joinSp] using words_single w hw.1 hw.2
    · have hw := h w (by simp)
      have hrec := ih (fun x hx => h x (List.mem_cons_of_mem _ hx))
      show words (w ++ ' ' :: joinSp (v :: ws2)) = w :: v :: ws2
      rw [words_append_ws ' ' (by decide), words_single w hw.1 hw.2, hrec,
        List.singleton_append]

theorem count_tokens_fallback_sp (a b : Str) :
    count_tokens_fallback (a ++ ' ' :: b) =
      count_tokens_fallback a + count_tokens_fallback b := by
  simp [count_tokens_fallback, words_append_ws ' ' (by decide), Nat.add_mul]

theorem count_tokens_fallback_nl (a b : Str) :
    count_tokens_fallback (a ++ '\n' :: '\n' :: b) =
      count_tokens_fallback a + count_tokens_fallback b := by
  have h2 : words ('\n' :: b) = words b := words_cons_ws '\n' b (by decide)
  simp [count_tokens_fallback, words_append_ws '\n' (by decide), h2, Nat.add_mul]

theorem count_tokens_fallback_trim (s : Str) :
    count_tokens_fallback (trim s) = count_tokens_fallback s := by
  simp [count_tokens_fallback, words_trim]

/-! ### Lemmas about sentence and paragraph splitting -/

theorem trim_ne_nil_of_mem_nonWS (cur : Str) (x : Char) (hx : x ∈ cur)
    (hxw : isWS x = false) : trim cur ≠ [] := by
  intro h
  rw [trim_eq_nil_iff] at h
  rw [h x hx] at hxw
  exact absurd hxw (by simp)

theorem sentencesAux_mem_ne_nil (rest : Str) :
    ∀ cur, ∀ s ∈ sentencesAux cur rest, s ≠ [] := by
  induction rest with
  | nil =>
    intro cur s hs
    by_cases h : trim cur = []
    · simp [sentencesAux, h] at hs
    · simp only [sentencesAux, if_neg h, List.mem_singleton] at hs
      exact hs ▸ h
  | cons c rest ih =>
    intro cur s hs
    by_cases hterm : (c = '.' || c = '!' || c = '?' || c = '\n') = true
    · rw [sentencesAux, if_pos hterm] at hs
      rcases List.mem_append.mp hs with hs | hs
      · by_cases h : trim (cur ++ [c]) = []
        · simp [h] at hs
        · simp only [if_neg h, List.mem_singleton] at hs
          exact hs ▸ h
      · exact ih [] s hs
    · rw [sentencesAux, if_neg hterm] at hs
      exact ih (cur ++ [c]) s hs

theorem sentencesAux_ne_nil (rest : Str) :
    ∀ cur, (∃ c ∈ cur ++ rest, isWS c = false) → sentencesAux cur rest ≠ [] := by
  induction rest with
  | nil =>
    rintro cur ⟨x, hx, hxw⟩
    rw [List.append_nil] at hx
    simp [sentencesAux, trim_ne_nil_of_mem_nonWS cur x hx hxw]
  | cons c rest ih =>
    rintro cur ⟨x, hx, hxw⟩
    by_cases hterm : (c = '.' || c = '!' || c = '?' || c = '\n') = true
    · rw [sentencesAux, if_pos hterm]
      rcases List.mem_append.mp hx with hx | hx
      · have hne := trim_ne_nil_of_mem_nonWS (cur ++ [c]) x
          (List.mem_append_left _ hx) hxw
        simp [hne]
      · rcases List.mem_cons.mp hx with hx | hx
        · have hne := trim_ne_nil_of_mem_nonWS (cur ++ [c]) x (by simp [hx]) hxw
          simp [hne]
        · have hrec := ih [] ⟨x, by simpa using hx, hxw⟩
          intro hcontra
          exact hrec (List.append_eq_nil.mp hcontra).2
    · rw [sentencesAux, if_neg hterm]
      refine ih (cur ++ [c]) ⟨x, ?_, hxw⟩
      simp only [List.mem_append, List.mem_cons, List.mem_singleton] at hx ⊢
      tauto

theorem split_into_sentences_mem_ne_nil (p : Str) :
    ∀ s ∈ split_into_sentences p, s ≠ [] :=
  sentencesAux_mem_ne_nil p []

theorem split_into_sentences_ne_nil (p : Str)
    (h : ∃ c ∈ p, isWS c = false) : split_into_sentences p ≠ [] := by
  refine sentencesAux_ne_nil p [] ?_
  simpa using h

theorem splitPara_cons (c : Char) (rest : Str)
    (h : ∀ rest2, c = '\n' → rest = '\n' :: rest2 → False) :
    splitPara (c :: rest) =
      match splitPara rest with
      | [] => [[c]]
      | p :: ps => (c :: p) :: ps := by
  rw [splitPara]
  exact h

theorem splitPara_ne_nil (s : Str) : splitPara s ≠ [] := by
  induction s using splitPara.induct with
  | case1 => simp [splitPara]
  | case2 rest ih => simp [splitPara]
  | case3 c rest h1 hnil ih =>
    rw [splitPara_cons c rest h1, hnil]
    simp
  | case4 c rest h1 p ps hcons ih =>
    rw [splitPara_cons c rest h1, hcons]
    simp

theorem joinParas_cons_cons (c : Char) (p : Str) (ps : List Str) :
    joinParas ((c :: p) :: ps) = c :: joinParas (p :: ps) := by
  cases ps with
  | nil => rfl
  | cons q ps2 => rfl

theorem splitPara_join (s : Str) : joinParas (splitPara s) = s := by
  induction s using splitPara.induct with
  | case1 => rfl
  | case2 rest ih =>
    rw [splitPara]
    obtain ⟨q, qs, hq⟩ : ∃ q qs, splitPara rest = q :: qs := by
      rcases h : splitPara rest with _ | ⟨q, qs⟩
      · exact absurd h (splitPara_ne_nil rest)
      · exact ⟨q, qs, rfl⟩
    rw [hq] at ih ⊢
    show ([] : Str) ++ '\n' :: '\n' :: joinParas (q :: qs) = '\n' :: '\n' :: rest
    rw [List.nil_append, ih]
  | case3 c rest h1 hnil ih =>
    exact absurd hnil (splitPara_ne_nil rest)
  | case4 c rest h1 p ps hcons ih =>
    rw [splitPara_cons c rest h1, hcons, joinParas_cons_cons]
    rw [hcons] at ih
    rw [ih]

/-! ### Simulation between `create_chunks` and its instrumented version -/

theorem render_mk (o : Origin) (ps : List (Str × Str)) (t : Nat) :
    (ACur.mk o ps t).render = o.pref ++ (ps.map (fun sp => sp.1 ++ sp.2)).flatten :=
  rfl

theorem render_append_piece (o : Origin) (ps : List (Str × Str)) (t t2 : Nat)
    (sep piece : Str) :
    (ACur.mk o (ps ++ [(sep, piece)]) t2).render =
      (ACur.mk o ps t).render ++ (sep ++ piece) := by
  simp [ACur.render, List.append_assoc]

theorem render_one (o : Origin) (sep piece : Str) (t : Nat) :
    (ACur.mk o [(sep, piece)] t).render = o.pref ++ (sep ++ piece) := by
  simp [ACur.render]

theorem ACur_render_ne_nil (c : ACur) (h : GoodCur c) : c.render ≠ [] := by
  obtain ⟨hne, hall⟩ := h
  rcases hp : c.pieces with _ | ⟨sp, rest⟩
  · exact absurd hp hne
  · intro hr
    rw [ACur.render, hp] at hr
    simp only [List.map_cons, List.flatten_cons, List.append_eq_nil] at hr
    exact hall sp (hp ▸ List.mem_cons_self sp rest) hr.2.1.2

theorem absA_stepSentence (S : Nat) (tok : Str → Nat) (st : AState) (s : Str)
    (hs : s ≠ []) (hG : GoodState st) :
    stepSentence S tok (absA st) s = absA (aStepSentence S tok st s) ∧
      GoodState (aStepSentence S tok st s) := by
  rcases hcur : st.cur with _ | ⟨c⟩
  · refine ⟨?_, ?_⟩
    · by_cases hb : 0 + tok s > S

      · simp [stepSentence, aStepSentence, absA, hcur, hb, ACur.render, Origin.pref]
      · simp [stepSentence, aStepSentence, absA, hcur, hb, ACur.render, Origin.pref]
    · intro c2 hc2
      simp only [aStepSentence, hcur] at hc2
      cases hc2
      exact ⟨by simp, by simpa using hs⟩
  · have hgc := hG c hcur
    have hrender := ACur_render_ne_nil c hgc
    by_cases hb : c.tokens + tok s > S
    · refine ⟨?_, ?_⟩
      · have hcc : (absA st).current_chunk = c.render := by simp [absA, hcur]
        have hct : (absA st).current_tokens = c.tokens := by simp [absA, hcur]
        have hplain : stepSentence S tok (absA st) s =
            ⟨(absA st).chunks ++ [trim c.render],
             overlapText c.render ++ ' ' :: s,
             tok (overlapText c.render ++ ' ' :: s)⟩ := by
          simp [stepSentence, hcc, hct, hb, hrender]
        have hann : absA (aStepSentence S tok st s) =
            ⟨st.done.map ACur.content ++ [ACur.content c],
             overlapText c.render ++ ' ' :: s,
             tok (overlapText c.render ++ ' ' :: s)⟩ := by
          simp [aStepSentence, hcur, hb, absA, render_one, Origin.pref]
        rw [hplain, hann]
        simp [absA, hcur, ACur.content]
      · intro c2 hc2
        simp only [aStepSentence, hcur, if_pos hb] at hc2
        cases hc2
        exact ⟨by simp, by simpa using hs⟩
    · refine ⟨?_, ?_⟩
      · have hr := render_append_piece c.origin c.pieces c.tokens
          (c.tokens + tok s) [' '] s
        simp only [stepSentence, aStepSentence, absA, hcur, if_neg hb, hrender,
          ne_eq, not_false_iff, if_true, hr]
        simp
      · intro c2 hc2
        simp only [aStepSentence, hcur, if_neg hb] at hc2
        cases hc2
        refine ⟨by simp, ?_⟩
        intro sp hsp
        rcases List.mem_append.mp hsp with hsp | hsp
        · exact hgc.2 sp hsp
        · simp only [List.mem_singleton] at hsp
          subst hsp
          exact hs

theorem absA_foldSentences (S : Nat) (tok : Str → Nat) (l : List Str)
    (hl : ∀ s ∈ l, s ≠ []) (st : AState) (hG : GoodState st) :
    l.foldl (stepSentence S tok) (absA st) =
        absA (l.foldl (aStepSentence S tok) st) ∧
      GoodState (l.foldl (aStepSentence S tok) st) := by
  induction l generalizing st with
  | nil => exact ⟨rfl, hG⟩
  | cons s l ih =>
    have hstep := absA_stepSentence S tok st s (hl s (List.mem_cons_self s l)) hG
    rw [List.foldl_cons, List.foldl_cons, hstep.1]
    exact ih (fun x hx => hl x (List.mem_cons_of_mem _ hx)) _ hstep.2

theorem absA_stepParagraph (S : Nat) (tok : Str → Nat) (st : AState) (p0 : Str)
    (hG : GoodState st) :
    stepParagraph S tok (absA st) p0 = absA (aStepParagraph S tok st p0) ∧
      GoodState (aStepParagraph S tok st p0) := by
  by_cases hp : trim p0 = []
  · constructor
    · simp [stepParagraph, aStepParagraph, hp]
    · simpa [aStepParagraph, hp] using hG
  · by_cases hbig : tok (trim p0) > S
    · have hsent := split_into_sentences_mem_ne_nil (trim p0)
      rcases hcur : st.cur with _ | ⟨c⟩
      · have hst1 : stepParagraph S tok (absA st) p0 =
            (split_into_sentences (trim p0)).foldl (stepSentence S tok) (absA st) := by
          simp [stepParagraph, hp, hbig, absA, hcur]
        have hast1 : aStepParagraph S tok st p0 =
            (split_into_sentences (trim p0)).foldl (aStepSentence S tok) st := by
          simp [aStepParagraph, hp, hbig, hcur]
        rw [hst1, hast1]
        exact absA_foldSentences S tok _ hsent st hG
      · have hrender := ACur_render_ne_nil c (hG c hcur)
        have hst1 : stepParagraph S tok (absA st) p0 =
            (split_into_sentences (trim p0)).foldl (stepSentence S tok)
              (absA ⟨st.done ++ [c], none⟩) := by
          simp [stepParagraph, hp, hbig, absA, hcur, hrender, ACur.content]
        have hast1 : aStepParagraph S tok st p0 =
            (split_into_sentences (trim p0)).foldl (aStepSentence S tok)
              ⟨st.done ++ [c], none⟩ := by
          simp [aStepParagraph, hp, hbig, hcur]
        rw [hst1, hast1]
        exact absA_foldSentences S tok _ hsent _ (by intro c2 hc2; simp at hc2)
    · rcases hcur : st.cur with _ | ⟨c⟩
      · refine ⟨?_, ?_⟩
        · by_cases hfit : 0 + tok (trim p0) ≤ S
          · simp [stepParagraph, aStepParagraph, hp, hbig, absA, hcur, hfit,
              ACur.render, Origin.pref]
          · simp [stepParagraph, aStepParagraph, hp, hbig, absA, hcur, hfit,
              ACur.render, Origin.pref]
        · intro c2 hc2
          simp only [aStepParagraph, if_neg hp, if_neg hbig, hcur] at hc2
          cases hc2
          exact ⟨by simp, by simpa using hp⟩
      · have hgc := hG c hcur
        have hrender := ACur_render_ne_nil c hgc
        have hcc : (absA st).current_chunk = c.render := by simp [absA, hcur]
        have hct : (absA st).current_tokens = c.tokens := by simp [absA, hcur]
        by_cases hfit : c.tokens + tok (trim p0) ≤ S
        · refine ⟨?_, ?_⟩
          · have hr := render_append_piece c.origin c.pieces c.tokens
              (c.tokens + tok (trim p0)) ['\n', '\n'] (trim p0)
            simp only [stepParagraph, hp, if_neg hp, hbig, if_neg hbig, hcc, hct,
              hfit, if_pos hfit, hrender, ne_eq, not_false_iff, if_true,
              aStepParagraph, hcur, absA]
            simp
            rw [hr]
            rfl
          · intro c2 hc2
            simp only [aStepParagraph, if_neg hp, if_neg hbig, hcur,
              if_pos hfit] at hc2
            cases hc2
            refine ⟨by simp, ?_⟩
            intro sp hsp
            rcases List.mem_append.mp hsp with hsp | hsp
            · exact hgc.2 sp hsp
            · simp only [List.mem_singleton] at hsp
              subst hsp
              exact hp
        · refine ⟨?_, ?_⟩
          · have hplain : stepParagraph S tok (absA st) p0 =
                ⟨(absA st).chunks ++ [trim c.render],
                 overlapText c.render ++ '\n' :: '\n' :: trim p0,
                 tok (overlapText c.render ++ '\n' :: '\n' :: trim p0)⟩ := by
              simp [stepParagraph, hp, hbig, hcc, hct, hfit, hrender]
            have hann : absA (aStepParagraph S tok st p0) =
                ⟨st.done.map ACur.content ++ [ACur.content c],
                 overlapText c.render ++ '\n' :: '\n' :: trim p0,
                 tok (overlapText c.render ++ '\n' :: '\n' :: trim p0)⟩ := by
              simp [aStepParagraph, hp, hbig, hcur, hfit, absA, render_one,
                Origin.pref]
            rw [hplain, hann]
            simp [absA, hcur, ACur.content]
          · intro c2 hc2
            simp only [aStepParagraph, if_neg hp, if_neg hbig, hcur,
              if_neg hfit] at hc2
            cases hc2
            exact ⟨by simp, by simpa using hp⟩

theorem absA_foldParas (S : Nat) (tok : Str → Nat) (l : List Str)
    (st : AState) (hG : GoodState st) :
    l.foldl (stepParagraph S tok) (absA st) =
        absA (l.foldl (aStepParagraph S tok) st) ∧
      GoodState (l.foldl (aStepParagraph S tok) st) := by
  induction l generalizing st with
  | nil => exact ⟨rfl, hG⟩
  | cons p l ih =>
    have hstep := absA_stepParagraph S tok st p hG
    rw [List.foldl_cons, List.foldl_cons, hstep.1]
    exact ih _ hstep.2

theorem create_chunks_eq_ann (S : Nat) (tok : Str → Nat) (text : Str) :
    create_chunks S tok text = (createChunksAnn S tok text).map ACur.content := by
  have h0 : GoodState (⟨[], none⟩ : AState) := by intro c hc; simp at hc
  have habs : absA (⟨[], none⟩ : AState) = ⟨[], [], 0⟩ := rfl
  have h := absA_foldParas S tok (splitPara text) ⟨[], none⟩ h0
  rw [create_chunks, createChunksAnn, ← habs, h.1]
  rcases hcur : ((splitPara text).foldl (aStepParagraph S tok) ⟨[], none⟩).cur
    with _ | ⟨c⟩
  · simp [absA, hcur]
  · have hrender := ACur_render_ne_nil c (h.2 c hcur)
    simp [absA, hcur, hrender, ACur.content]

/-! ### Conservation of the pieces distributed over the chunks -/

theorem allPieces_stepSentence (S : Nat) (tok : Str → Nat) (st : AState) (s : Str) :
    (aStepSentence S tok st s).allPieces = st.allPieces ++ [s] := by
  rcases hcur : st.cur with _ | ⟨c⟩
  · simp [aStepSentence, hcur, AState.allPieces]
  · by_cases hb : c.tokens + tok s > S
    · simp [aStepSentence, hcur, hb, AState.allPieces, List.flatten_append]
    · simp [aStepSentence, hcur, hb, AState.allPieces]

theorem allPieces_foldSentences (S : Nat) (tok : Str → Nat) (l : List Str) :
    ∀ st : AState,
      (l.foldl (aStepSentence S tok) st).allPieces = st.allPieces ++ l := by
  induction l with
  | nil => intro st; simp
  | cons s l ih =>
    intro st
    rw [List.foldl_cons, ih, allPieces_stepSentence]
    simp

theorem allPieces_stepParagraph (S : Nat) (tok : Str → Nat) (st : AState) (p0 : Str) :
    (aStepParagraph S tok st p0).allPieces = st.allPieces ++ pieceListOf S tok p0 := by
  by_cases hp : trim p0 = []
  · simp [aStepParagraph, pieceListOf, hp]
  · by_cases hbig : tok (trim p0) > S
    · rcases hcur : st.cur with _ | ⟨c⟩
      · have h1 : aStepParagraph S tok st p0 =
            (split_into_sentences (trim p0)).foldl (aStepSentence S tok) st := by
          simp [aStepParagraph, hp, hbig, hcur]
        rw [h1, allPieces_foldSentences, pieceListOf, if_neg hp, if_pos hbig]
      · have h1 : aStepParagraph S tok st p0 =
            (split_into_sentences (trim p0)).foldl (aStepSentence S tok)
              ⟨st.done ++ [c], none⟩ := by
          simp [aStepParagraph, hp, hbig, hcur]
        rw [h1, allPieces_foldSentences, pieceListOf, if_neg hp, if_pos hbig]
        simp [AState.allPieces, hcur, List.flatten_append]
    · rcases hcur : st.cur with _ | ⟨c⟩
      · simp [aStepParagraph, pieceListOf, hp, hbig, hcur, AState.allPieces]
      · by_cases hfit : c.tokens + tok (trim p0) ≤ S
        · simp [aStepParagraph, pieceListOf, hp, hbig, hcur, hfit, AState.allPieces]
        · simp [aStepParagraph, pieceListOf, hp, hbig, hcur, hfit, AState.allPieces,
            List.flatten_append]

theorem allPieces_foldParas (S : Nat) (tok : Str → Nat) (l : List Str) :
    ∀ st : AState,
      (l.foldl (aStepParagraph S tok) st).allPieces =
        st.allPieces ++ l.flatMap (pieceListOf S tok) := by
  induction l with
  | nil => intro st; simp
  | cons p l ih =>
    intro st
    rw [List.foldl_cons, ih, allPieces_stepParagraph]
    simp

theorem annList_allPieces (st : AState) :
    (st.annList.map (fun c => c.pieces.map (fun sp => sp.2))).flatten =
      st.allPieces := by
  rcases hcur : st.cur with _ | ⟨c⟩
  · simp [AState.annList, AState.allPieces, hcur]
  · simp [AState.annList, AState.allPieces, hcur, List.flatten_append]

theorem createChunksAnn_annList (S : Nat) (tok : Str → Nat) (text : Str) :
    createChunksAnn S tok text =
      ((splitPara text).foldl (aStepParagraph S tok) ⟨[], none⟩).annList := by
  rw [createChunksAnn, AState.annList]
  rcases hcur : ((splitPara text).foldl (aStepParagraph S tok) ⟨[], none⟩).cur
    with _ | ⟨c⟩ <;> simp [hcur]

theorem ann_pieces_complete (S : Nat) (tok : Str → Nat) (text : Str) :
    ((createChunksAnn S tok text).map
        (fun c => c.pieces.map (fun sp => sp.2))).flatten =
      piecesOf S tok text := by
  rw [createChunksAnn_annList, annList_allPieces, allPieces_foldParas]
  simp [AState.allPieces, piecesOf]

/-! ### The overlap chain invariant -/

theorem overlapText_trim (s : Str) : overlapText (trim s) = overlapText s := by
  simp [overlapText, words_trim]

theorem annList_none (st : AState) (h : st.cur = none) : st.annList = st.done := by
  simp [AState.annList, h]

theorem annList_some (st : AState) (c : ACur) (h : st.cur = some c) :
    st.annList = st.done ++ [c] := by
  simp [AState.annList, h]

theorem chainInv_stepSentence (S : Nat) (tok : Str → Nat) (st : AState) (s : Str)
    (h : ChainInv st) : ChainInv (aStepSentence S tok st s) := by
  obtain ⟨hch, hsep⟩ := h
  rcases hcur : st.cur with _ | ⟨c⟩
  · have hann := annList_none st hcur
    have hann2 : (aStepSentence S tok st s).annList =
        st.done ++ [⟨Origin.fresh, [(([] : Str), s)], tok s⟩] := by
      simp [aStepSentence, hcur, AState.annList]
    constructor
    · rw [hann2]
      refine List.Chain'.append (hann ▸ hch) (List.chain'_singleton _) ?_
      intro x hx y hy pre hpre
      simp only [List.head?_cons, Option.mem_def, Option.some.injEq] at hy
      rw [← hy] at hpre
      exact absurd hpre (by simp)
    · intro c2 hc2
      rw [hann2] at hc2
      rcases List.mem_append.mp hc2 with hc2 | hc2
      · exact hsep c2 (hann ▸ hc2)
      · simp only [List.mem_singleton] at hc2
        subst hc2
        intro pre hpre
        exact absurd hpre (by simp)
  · have hann := annList_some st c hcur
    by_cases hb : c.tokens + tok s > S
    · have hann2 : (aStepSentence S tok st s).annList =
          (st.done ++ [c]) ++ [⟨Origin.seeded (overlapText c.render),
            [([' '], s)], tok (overlapText c.render ++ ' ' :: s)⟩] := by
        simp [aStepSentence, hcur, hb, AState.annList]
      constructor
      · rw [hann2]
        refine List.Chain'.append (hann ▸ hch) (List.chain'_singleton _) ?_
        intro x hx y hy pre hpre
        rw [List.getLast?_concat] at hx
        simp only [Option.mem_def, Option.some.injEq] at hx
        subst hx
        simp only [List.head?_cons, Option.mem_def, Option.some.injEq] at hy
        rw [← hy] at hpre
        simp only [Origin.seeded.injEq] at hpre
        rw [← hpre, ACur.content, overlapText_trim]
      · intro c2 hc2
        rw [hann2] at hc2
        rcases List.mem_append.mp hc2 with hc2 | hc2
        · exact hsep c2 (hann ▸ hc2)
        · simp only [List.mem_singleton] at hc2
          subst hc2
          intro pre hpre
          exact ⟨[' '], s, [], rfl, Or.inl rfl⟩
    · have hann2 : (aStepSentence S tok st s).annList =
          st.done ++ [⟨c.origin, c.pieces ++ [([' '], s)], c.tokens + tok s⟩] := by
        simp [aStepSentence, hcur, hb, AState.annList]
      constructor
      · rw [hann2]
        rw [hann, List.chain'_append] at hch
        obtain ⟨h1, _, h3⟩ := hch
        rw [List.chain'_append]
        refine ⟨h1, List.chain'_singleton _, ?_⟩
        intro x hx y hy pre hpre
        simp only [List.head?_cons, Option.mem_def, Option.some.injEq] at hy
        rw [← hy] at hpre
        exact h3 x hx c (by simp) pre hpre
      · intro c2 hc2
        rw [hann2] at hc2
        rcases List.mem_append.mp hc2 with hc2 | hc2
        · exact hsep c2 (hann ▸ List.mem_append_left _ hc2)
        · simp only [List.mem_singleton] at hc2
          subst hc2
          intro pre hpre
          obtain ⟨sep, p, rest, hpieces, hsepOK⟩ :=
            hsep c (hann ▸ List.mem_append_right _ (by simp)) pre hpre
          exact ⟨sep, p, rest ++ [([' '], s)], by simp [hpieces], hsepOK⟩

theorem chainInv_foldSentences (S : Nat) (tok : Str → Nat) (l : List Str) :
    ∀ st : AState, ChainInv st →
      ChainInv (l.foldl (aStepSentence S tok) st) := by
  induction l with
  | nil => intro st h; exact h
  | cons s l ih =>
    intro st h
    exact ih _ (chainInv_stepSentence S tok st s h)

theorem chainInv_stepParagraph (S : Nat) (tok : Str → Nat) (st : AState) (p0 : Str)
    (h : ChainInv st) : ChainInv (aStepParagraph S tok st p0) := by
  obtain ⟨hch, hsep⟩ := h
  by_cases hp : trim p0 = []
  · simpa [aStepParagraph, hp] using ⟨hch, hsep⟩
  · by_cases hbig : tok (trim p0) > S
    · rcases hcur : st.cur with _ | ⟨c⟩
      · have h1 : aStepParagraph S tok st p0 =
            (split_into_sentences (trim p0)).foldl (aStepSentence S tok) st := by
          simp [aStepParagraph, hp, hbig, hcur]
        rw [h1]
        exact chainInv_foldSentences S tok _ st ⟨hch, hsep⟩
      · have h1 : aStepParagraph S tok st p0 =
            (split_into_sentences (trim p0)).foldl (aStepSentence S tok)
              ⟨st.done ++ [c], none⟩ := by
          simp [aStepParagraph, hp, hbig, hcur]
        rw [h1]
        refine chainInv_foldSentences S tok _ _ ?_
        have hann := annList_some st c hcur
        have hann1 : (AState.mk (st.done ++ [c]) none).annList = st.annList := by
          rw [hann]
          simp [AState.annList]
        exact ⟨hann1 ▸ hch, hann1 ▸ hsep⟩
    · rcases hcur : st.cur with _ | ⟨c⟩
      · have hann := annList_none st hcur
        have hann2 : (aStepParagraph S tok st p0).annList =
            st.done ++ [⟨Origin.fresh, [(([] : Str), trim p0)], tok (trim p0)⟩] := by
          simp [aStepParagraph, hp, hbig, hcur, AState.annList]
        constructor
        · rw [hann2]
          refine List.Chain'.append (hann ▸ hch) (List.chain'_singleton _) ?_
          intro x hx y hy pre hpre
          simp only [List.head?_cons, Option.mem_def, Option.some.injEq] at hy
          rw [← hy] at hpre
          exact absurd hpre (by simp)
        · intro c2 hc2
          rw [hann2] at hc2
          rcases List.mem_append.mp hc2 with hc2 | hc2
          · exact hsep c2 (hann ▸ hc2)
          · simp only [List.mem_singleton] at hc2
            subst hc2
            intro pre hpre
            exact absurd hpre (by simp)
      · have hann := annList_some st c hcur
        by_cases hfit : c.tokens + tok (trim p0) ≤ S
        · have hann2 : (aStepParagraph S tok st p0).annList =
              st.done ++ [⟨c.origin, c.pieces ++ [(['\n', '\n'], trim p0)],
                c.tokens + tok (trim p0)⟩] := by
            simp [aStepParagraph, hp, hbig, hcur, hfit, AState.annList]
          constructor
          · rw [hann2]
            rw [hann, List.chain'_append] at hch
            obtain ⟨h1, _, h3⟩ := hch
            rw [List.chain'_append]
            refine ⟨h1, List.chain'_singleton _, ?_⟩
            intro x hx y hy pre hpre
            simp only [List.head?_cons, Option.mem_def, Option.some.injEq] at hy
            rw [← hy] at hpre
            exact h3 x hx c (by simp) pre hpre
          · intro c2 hc2
            rw [hann2] at hc2
            rcases List.mem_append.mp hc2 with hc2 | hc2
            · exact hsep c2 (hann ▸ List.mem_append_left _ hc2)
            · simp only [List.mem_singleton] at hc2
              subst hc2
              intro pre hpre
              obtain ⟨sep, p, rest, hpieces, hsepOK⟩ :=
                hsep c (hann ▸ List.mem_append_right _ (by simp)) pre hpre
              exact ⟨sep, p, rest ++ [(['\n', '\n'], trim p0)], by simp [hpieces],
                hsepOK⟩
        · have hann2 : (aStepParagraph S tok st p0).annList =
              (st.done ++ [c]) ++ [⟨Origin.seeded (overlapText c.render),
                [(['\n', '\n'], trim p0)],
                tok (overlapText c.render ++ '\n' :: '\n' :: trim p0)⟩] := by
            simp [aStepParagraph, hp, hbig, hcur, hfit, AState.annList]
          constructor
          · rw [hann2]
            refine List.Chain'.append (hann ▸ hch) (List.chain'_singleton _) ?_
            intro x hx y hy pre hpre
            rw [List.getLast?_concat] at hx
            simp only [Option.mem_def, Option.some.injEq] at hx
            subst hx
            simp only [List.head?_cons, Option.mem_def, Option.some.injEq] at hy
            rw [← hy] at hpre
            simp only [Origin.seeded.injEq] at hpre
            rw [← hpre, ACur.content, overlapText_trim]
          · intro c2 hc2
            rw [hann2] at hc2
            rcases List.mem_append.mp hc2 with hc2 | hc2
            · exact hsep c2 (hann ▸ hc2)
            · simp only [List.mem_singleton] at hc2
              subst hc2
              intro pre hpre
              exact ⟨['\n', '\n'], trim p0, [], rfl, Or.inr rfl⟩

theorem chainInv_foldParas (S : Nat) (tok : Str → Nat) (l : List Str) :
    ∀ st : AState, ChainInv st →
      ChainInv (l.foldl (aStepParagraph S tok) st) := by
  induction l with
  | nil => intro st h; exact h
  | cons p l ih =>
    intro st h
    exact ih _ (chainInv_stepParagraph S tok st p h)

theorem createChunksAnn_chain (S : Nat) (tok : Str → Nat) (text : Str) :
    List.Chain' chunkSeedRel (createChunksAnn S tok text) ∧
      ∀ c ∈ createChunksAnn S tok text, SeedSepOK c := by
  have h0 : ChainInv (⟨[], none⟩ : AState) := by
    constructor
    · simp [AState.annList]
    · intro c hc
      simp [AState.annList] at hc
  have h := chainInv_foldParas S tok (splitPara text) ⟨[], none⟩ h0
  rw [createChunksAnn_annList]
  exact h

/-! ### The token accounting invariant -/

theorem tokInv_flush (S : Nat) (tok : Str → Nat) (c : ACur)
    (Htrim : ∀ x, tok (trim x) ≤ tok x)
    (h : tok c.render ≤ c.tokens ∧ (c.origin = Origin.fresh →
      c.tokens ≤ S ∨ ∃ s, c.pieces = [(([] : Str), s)] ∧ S < tok s)) :
    tok c.content ≤ S ∨ (∃ p, c.origin = Origin.seeded p) ∨
      ∃ s, c.pieces = [(([] : Str), s)] ∧ S < tok s := by
  rcases horig : c.origin with _ | p
  · rcases h.2 horig with hS | hsingle
    · left
      calc tok c.content = tok (trim c.render) := rfl
        _ ≤ tok c.render := Htrim _
        _ ≤ c.tokens := h.1
        _ ≤ S := hS
    · exact Or.inr (Or.inr hsingle)
  · exact Or.inr (Or.inl ⟨p, rfl⟩)

theorem tokInv_stepSentence (S : Nat) (tok : Str → Nat) (st : AState) (s : Str)
    (Hsp : ∀ a b, tok (a ++ ' ' :: b) ≤ tok a + tok b)
    (Htrim : ∀ x, tok (trim x) ≤ tok x)
    (h : TokInv S tok st) : TokInv S tok (aStepSentence S tok st s) := by
  obtain ⟨hcurI, hdoneI⟩ := h
  rcases hcur : st.cur with _ | ⟨c⟩
  · constructor
    · intro c2 hc2
      simp only [aStepSentence, hcur, Option.some.injEq] at hc2
      rw [← hc2]
      constructor
      · have hr : (ACur.mk Origin.fresh [(([] : Str), s)] (tok s)).render = s := by
          simp [ACur.render, Origin.pref]
        rw [hr]
      · intro _
        by_cases hS : tok s ≤ S
        · exact Or.inl hS
        · exact Or.inr ⟨s, rfl, by omega⟩
    · intro c2 hc2
      simp only [aStepSentence, hcur] at hc2
      exact hdoneI c2 hc2
  · have hc := hcurI c hcur
    by_cases hb : c.tokens + tok s > S
    · constructor
      · intro c2 hc2
        simp only [aStepSentence, hcur, if_pos hb, Option.some.injEq] at hc2
        rw [← hc2]
        constructor
        · have hr : (ACur.mk (Origin.seeded (overlapText c.render)) [([' '], s)]
              (tok (overlapText c.render ++ ' ' :: s))).render =
              overlapText c.render ++ ' ' :: s := by
            simp [ACur.render, Origin.pref]
          rw [hr]
        · intro hfr
          exact absurd hfr (by simp)
      · intro c2 hc2
        simp only [aStepSentence, hcur, if_pos hb] at hc2
        rcases List.mem_append.mp hc2 with hc2 | hc2
        · exact hdoneI c2 hc2
        · simp only [List.mem_singleton] at hc2
          subst hc2
          exact tokInv_flush S tok c2 Htrim hc
    · constructor
      · intro c2 hc2
        simp only [aStepSentence, hcur, if_neg hb, Option.some.injEq] at hc2
        rw [← hc2]
        constructor
        · have hr := render_append_piece c.origin c.pieces c.tokens
            (c.tokens + tok s) [' '] s
          rw [hr]
          have : (ACur.mk c.origin c.pieces c.tokens).render ++ ([' '] ++ s) =
              c.render ++ ' ' :: s := rfl
          rw [this]
          exact le_trans (Hsp c.render s) (Nat.add_le_add_right hc.1 _)
        · intro _
          left
          show c.tokens + tok s ≤ S
          omega
      · intro c2 hc2
        simp only [aStepSentence, hcur, if_neg hb] at hc2
        exact hdoneI c2 hc2

theorem tokInv_foldSentences (S : Nat) (tok : Str → Nat) (l : List Str)
    (Hsp : ∀ a b, tok (a ++ ' ' :: b) ≤ tok a + tok b)
    (Htrim : ∀ x, tok (trim x) ≤ tok x) :
    ∀ st : AState, TokInv S tok st →
      TokInv S tok (l.foldl (aStepSentence S tok) st) := by
  induction l with
  | nil => intro st h; exact h
  | cons s l ih =>
    intro st h
    exact ih _ (tokInv_stepSentence S tok st s Hsp Htrim h)

theorem tokInv_stepParagraph (S : Nat) (tok : Str → Nat) (st : AState) (p0 : Str)
    (Hsp : ∀ a b, tok (a ++ ' ' :: b) ≤ tok a + tok b)
    (Hnl : ∀ a b, tok (a ++ '\n' :: '\n' :: b) ≤ tok a + tok b)
    (Htrim : ∀ x, tok (trim x) ≤ tok x)
    (h : TokInv S tok st) : TokInv S tok (aStepParagraph S tok st p0) := by
  obtain ⟨hcurI, hdoneI⟩ := h
  by_cases hp : trim p0 = []
  · simpa [aStepParagraph, hp] using ⟨hcurI, hdoneI⟩
  · by_cases hbig : tok (trim p0) > S
    · rcases hcur : st.cur with _ | ⟨c⟩
      · have h1 : aStepParagraph S tok st p0 =
            (split_into_sentences (trim p0)).foldl (aStepSentence S tok) st := by
          simp [aStepParagraph, hp, hbig, hcur]
        rw [h1]
        exact tokInv_foldSentences S tok _ Hsp Htrim st ⟨hcurI, hdoneI⟩
      · have h1 : aStepParagraph S tok st p0 =
            (split_into_sentences (trim p0)).foldl (aStepSentence S tok)
              ⟨st.done ++ [c], none⟩ := by
          simp [aStepParagraph, hp, hbig, hcur]
        rw [h1]
        refine tokInv_foldSentences S tok _ Hsp Htrim _ ⟨?_, ?_⟩
        · intro c2 hc2
          simp at hc2
        · intro c2 hc2
          simp only at hc2
          rcases List.mem_append.mp hc2 with hc2 | hc2
          · exact hdoneI c2 hc2
          · simp only [List.mem_singleton] at hc2
            subst hc2
            exact tokInv_flush S tok c2 Htrim (hcurI c2 hcur)
    · rcases hcur : st.cur with _ | ⟨c⟩
      · constructor
        · intro c2 hc2
          simp only [aStepParagraph, if_neg hp, if_neg hbig, hcur,
            Option.some.injEq] at hc2
          rw [← hc2]
          constructor
          · have hr : (ACur.mk Origin.fresh [(([] : Str), trim p0)]
                (tok (trim p0))).render = trim p0 := by
              simp [ACur.render, Origin.pref]
            rw [hr]
          · intro _
            left
            show tok (trim p0) ≤ S
            omega
        · intro c2 hc2
          simp only [aStepParagraph, if_neg hp, if_neg hbig, hcur] at hc2
          exact hdoneI c2 hc2
      · have hc := hcurI c hcur
        by_cases hfit : c.tokens + tok (trim p0) ≤ S
        · constructor
          · intro c2 hc2
            simp only [aStepParagraph, if_neg hp, if_neg hbig, hcur,
              if_pos hfit, Option.some.injEq] at hc2
            rw [← hc2]
            constructor
            · have hr := render_append_piece c.origin c.pieces c.tokens
                (c.tokens + tok (trim p0)) ['\n', '\n'] (trim p0)
              rw [hr]
              have : (ACur.mk c.origin c.pieces c.tokens).render ++
                  (['\n', '\n'] ++ trim p0) = c.render ++ '\n' :: '\n' :: trim p0 :=
                rfl
              rw [this]
              exact le_trans (Hnl c.render (trim p0)) (Nat.add_le_add_right hc.1 _)
            · intro _
              exact Or.inl hfit
          · intro c2 hc2
            simp only [aStepParagraph, if_neg hp, if_neg hbig, hcur,
              if_pos hfit] at hc2
            exact hdoneI c2 hc2
        · constructor
          · intro c2 hc2
            simp only [aStepParagraph, if_neg hp, if_neg hbig, hcur,
              if_neg hfit, Option.some.injEq] at hc2
            rw [← hc2]
            constructor
            · have hr : (ACur.mk (Origin.seeded (overlapText c.render))
                  [(['\n', '\n'], trim p0)]
                  (tok (overlapText c.render ++ '\n' :: '\n' :: trim p0))).render =
                  overlapText c.render ++ '\n' :: '\n' :: trim p0 := by
                simp [ACur.render, Origin.pref]
              rw [hr]
            · intro hfr
              exact absurd hfr (by simp)
          · intro c2 hc2
            simp only [aStepParagraph, if_neg hp, if_neg hbig, hcur,
              if_neg hfit] at hc2
            rcases List.mem_append.mp hc2 with hc2 | hc2
            · exact hdoneI c2 hc2
            · simp only [List.mem_singleton] at hc2
              subst hc2
              exact tokInv_flush S tok c2 Htrim hc

theorem tokInv_foldParas (S : Nat) (tok : Str → Nat) (l : List Str)
    (Hsp : ∀ a b, tok (a ++ ' ' :: b) ≤ tok a + tok b)
    (Hnl : ∀ a b, tok (a ++ '\n' :: '\n' :: b) ≤ tok a + tok b)
    (Htrim : ∀ x, tok (trim x) ≤ tok x) :
    ∀ st : AState, TokInv S tok st →
      TokInv S tok (l.foldl (aStepParagraph S tok) st) := by
  induction l with
  | nil => intro st h; exact h
  | cons p l ih =>
    intro st h
    exact ih _ (tokInv_stepParagraph S tok st p Hsp Hnl Htrim h)

theorem createChunksAnn_token_bound (S : Nat) (tok : Str → Nat) (text : Str)
    (Hsp : ∀ a b, tok (a ++ ' ' :: b) ≤ tok a + tok b)
    (Hnl : ∀ a b, tok (a ++ '\n' :: '\n' :: b) ≤ tok a + tok b)
    (Htrim : ∀ x, tok (trim x) ≤ tok x) :
    ∀ c ∈ createChunksAnn S tok text,
      tok c.content ≤ S ∨ (∃ p, c.origin = Origin.seeded p) ∨
        ∃ s, c.pieces = [(([] : Str), s)] ∧ S < tok s := by
  have h0 : TokInv S tok (⟨[], none⟩ : AState) := by
    constructor
    · intro c hc; simp at hc
    · intro c hc; simp at hc
  have h := tokInv_foldParas S tok (splitPara text) Hsp Hnl Htrim ⟨[], none⟩ h0
  intro c hc
  rw [createChunksAnn_annList] at hc
  rw [AState.annList] at hc
  rcases hcur : ((splitPara text).foldl (aStepParagraph S tok) ⟨[], none⟩).cur
    with _ | ⟨c2⟩
  · rw [hcur] at hc
    simp only [List.append_nil] at hc
    exact h.2 c hc
  · rw [hcur] at hc
    rcases List.mem_append.mp hc with hc | hc
    · exact h.2 c hc
    · simp only [List.mem_singleton] at hc
      subst hc
      exact tokInv_flush S tok c Htrim (h.1 c hcur)

/-! ### Claim theorems: the chunker (C1 - C4) -/

/-- C1, counterexample: with chunk size 8 and the degraded-mode token counter,
the second chunk produced for `"a b c d\n\ne f g h\n\ni j k l"` carries an
injected overlap and counts 16 tokens, exceeding the budget, although every
one of its sentences fits the budget on its own — so it is not a chunk
consisting of a single overlong sentence. -/
theorem create_chunks_budget_counterexample :
    create_chunks 8 count_tokens_fallback txtThreeParas =
      [['a', ' ', 'b', ' ', 'c', ' ', 'd'],
       ['a', ' ', 'b', ' ', 'c', ' ', 'd', '\n', '\n',
        'e', ' ', 'f', ' ', 'g', ' ', 'h'],
       ['a', ' ', 'b', ' ', 'c', ' ', 'd', ' ', 'e', ' ', 'f', ' ', 'g', ' ',
        'h', '\n', '\n', 'i', ' ', 'j', ' ', 'k', ' ', 'l']] ∧
    8 < count_tokens_fallback
      ['a', ' ', 'b', ' ', 'c', ' ', 'd', '\n', '\n',
       'e', ' ', 'f', ' ', 'g', ' ', 'h'] ∧
    ∀ s ∈ split_into_sentences
      ['a', ' ', 'b', ' ', 'c', ' ', 'd', '\n', '\n',
       'e', ' ', 'f', ' ', 'g', ' ', 'h'],
      count_tokens_fallback s ≤ 8 := by decide

/-- C1 (amended): for a token counter that is subadditive across the space and
blank-line separators and non-increasing under strip, every chunk respects the
budget `S` except chunks seeded with an injected overlap and chunks consisting
of a single piece (a sentence kept whole) whose own token count exceeds `S`;
the instrumented chunk list projects onto `create_chunks` exactly. -/
theorem create_chunks_token_budget (S : Nat) (tok : Str → Nat) (text : Str)
    (Hsp : ∀ a b, tok (a ++ ' ' :: b) ≤ tok a + tok b)
    (Hnl : ∀ a b, tok (a ++ '\n' :: '\n' :: b) ≤ tok a + tok b)
    (Htrim : ∀ x, tok (trim x) ≤ tok x) :
    create_chunks S tok text = (createChunksAnn S tok text).map ACur.content ∧
    ∀ c ∈ createChunksAnn S tok text,
      tok c.content ≤ S ∨ (∃ p, c.origin = Origin.seeded p) ∨
        ∃ s, c.pieces = [(([] : Str), s)] ∧ S < tok s :=
  ⟨create_chunks_eq_ann S tok text,
   createChunksAnn_token_bound S tok text Hsp Hnl Htrim⟩

/-- Witness for the amended C1 at a concrete input and the degraded-mode
counter, whose subadditivity and strip laws hold with equality. -/
theorem create_chunks_token_budget_witness :
    create_chunks 8 count_tokens_fallback txtThreeParas =
      (createChunksAnn 8 count_tokens_fallback txtThreeParas).map ACur.content ∧
    ∀ c ∈ createChunksAnn 8 count_tokens_fallback txtThreeParas,
      count_tokens_fallback c.content ≤ 8 ∨
        (∃ p, c.origin = Origin.seeded p) ∨
        ∃ s, c.pieces = [(([] : Str), s)] ∧ 8 < count_tokens_fallback s :=
  create_chunks_token_budget 8 count_tokens_fallback txtThreeParas
    (fun a b => le_of_eq (count_tokens_fallback_sp a b))
    (fun a b => le_of_eq (count_tokens_fallback_nl a b))
    (fun x => le_of_eq (count_tokens_fallback_trim x))

/-- C2: the pieces packed into the chunks (each chunk minus its injected
overlap seed) are exactly the stripped non-empty paragraphs of the document,
in order, with oversized paragraphs replaced by their sentences, every chunk
being its seed followed by its separator-joined pieces; and the instrumented
chunk list projects onto `create_chunks` exactly. -/
theorem create_chunks_reconstruct (S : Nat) (tok : Str → Nat) (text : Str) :
    create_chunks S tok text = (createChunksAnn S tok text).map ACur.content ∧
    ((createChunksAnn S tok text).map
        (fun c => c.pieces.map (fun sp => sp.2))).flatten = piecesOf S tok text ∧
    ∀ c ∈ createChunksAnn S tok text,
      c.content = trim (c.origin.pref ++
        (c.pieces.map (fun sp => sp.1 ++ sp.2)).flatten) :=
  ⟨create_chunks_eq_ann S tok text, ann_pieces_complete S tok text,
   fun _ _ => rfl⟩

/-- Witness for C2 at a concrete input. -/
theorem create_chunks_reconstruct_witness :
    create_chunks 8 count_tokens_fallback txtThreeParas =
      (createChunksAnn 8 count_tokens_fallback txtThreeParas).map ACur.content ∧
    ((createChunksAnn 8 count_tokens_fallback txtThreeParas).map
        (fun c => c.pieces.map (fun sp => sp.2))).flatten =
      piecesOf 8 count_tokens_fallback txtThreeParas ∧
    ∀ c ∈ createChunksAnn 8 count_tokens_fallback txtThreeParas,
      c.content = trim (c.origin.pref ++
        (c.pieces.map (fun sp => sp.1 ++ sp.2)).flatten) :=
  create_chunks_reconstruct 8 count_tokens_fallback txtThreeParas

/-- C4: the configured `chunk_overlap` value never influences chunking — two
processors built with the same chunk size, the same tokenizer and any two
overlap arguments produce identical chunk lists on every document. -/
theorem chunk_overlap_config_irrelevant (S v1 v2 : Nat) (tok : Str → Nat)
    (text : Str) :
    (DocumentProcessor.init S v1 tok).createChunks text =
      (DocumentProcessor.init S v2 tok).createChunks text := rfl

/-- C3: whenever a chunk was seeded by a flush-and-overlap split, its leading
words are exactly the last `min(wordCount(previous chunk), 50)` whitespace-
delimited words of the immediately preceding chunk's content. -/
theorem create_chunks_overlap_seed (S : Nat) (tok : Str → Nat) (text : Str)
    (i : Nat) (pre : Str)
    (h : i + 1 < (createChunksAnn S tok text).length)
    (hseed : ((createChunksAnn S tok text).getD (i + 1) dfltChunk).origin =
      Origin.seeded pre) :
    (words ((createChunksAnn S tok text).getD (i + 1) dfltChunk).content).take
        (min (words ((createChunksAnn S tok text).getD i
          dfltChunk).content).length 50) =
      (words ((createChunksAnn S tok text).getD i dfltChunk).content).drop
        ((words ((createChunksAnn S tok text).getD i dfltChunk).content).length -
          min (words ((createChunksAnn S tok text).getD i
            dfltChunk).content).length 50) := by
  have hi : i < (createChunksAnn S tok text).length := Nat.lt_of_succ_lt h
  have e1 : (createChunksAnn S tok text).getD i dfltChunk =
      (createChunksAnn S tok text).get ⟨i, hi⟩ := List.getD_eq_get _ dfltChunk hi
  have e2 : (createChunksAnn S tok text).getD (i + 1) dfltChunk =
      (createChunksAnn S tok text).get ⟨i + 1, h⟩ := List.getD_eq_get _ dfltChunk h
  rw [e2] at hseed
  rw [e1, e2]
  obtain ⟨hch, hsep⟩ := createChunksAnn_chain S tok text
  have hrel : chunkSeedRel ((createChunksAnn S tok text).get ⟨i, hi⟩)
      ((createChunksAnn S tok text).get ⟨i + 1, h⟩) :=
    List.chain'_iff_get.mp hch i (by omega)
  have hpre : pre =
      overlapText ((createChunksAnn S tok text).get ⟨i, hi⟩).content :=
    hrel pre hseed
  obtain ⟨sep, p, rest, hpieces, hsepOK⟩ :=
    hsep ((createChunksAnn S tok text).get ⟨i + 1, h⟩)
      (List.get_mem _ _ _) pre hseed
  have hrender : ((createChunksAnn S tok text).get ⟨i + 1, h⟩).render =
      pre ++ ((sep ++ p) ++
        ((rest.map (fun sp => sp.1 ++ sp.2)).flatten)) := by
    rw [ACur.render, hpieces, hseed]
    simp [Origin.pref]
  have hwords2 : ∃ tail,
      words ((createChunksAnn S tok text).get ⟨i + 1, h⟩).content =
        words pre ++ tail := by
    rcases hsepOK with hsp1 | hsp1
    · refine ⟨words (p ++ (rest.map (fun sp => sp.1 ++ sp.2)).flatten), ?_⟩
      rw [ACur.content, words_trim, hrender, hsp1]
      have hassoc : pre ++ (([' '] ++ p) ++
          (rest.map (fun sp => sp.1 ++ sp.2)).flatten) =
          pre ++ ' ' :: (p ++ (rest.map (fun sp => sp.1 ++ sp.2)).flatten) := by
        simp
      rw [hassoc, words_append_ws ' ' (by decide)]
    · refine ⟨words ('\n' :: (p ++ (rest.map (fun sp => sp.1 ++ sp.2)).flatten)),
        ?_⟩
      rw [ACur.content, words_trim, hrender, hsp1]
      have hassoc : pre ++ ((['\n', '\n'] ++ p) ++
          (rest.map (fun sp => sp.1 ++ sp.2)).flatten) =
          pre ++ '\n' :: ('\n' ::
            (p ++ (rest.map (fun sp => sp.1 ++ sp.2)).flatten)) := by
        simp
      rw [hassoc, words_append_ws '\n' (by decide)]
  obtain ⟨tail, hw2⟩ := hwords2
  have hgood : ∀ w ∈ (words ((createChunksAnn S tok text).get
        ⟨i, hi⟩).content).drop
      ((words ((createChunksAnn S tok text).get ⟨i, hi⟩).content).length -
        min (words ((createChunksAnn S tok text).get
          ⟨i, hi⟩).content).length 50),
      w ≠ [] ∧ ∀ c ∈ w, isWS c = false :=
    fun w hw => words_good _ w (List.mem_of_mem_drop hw)
  have hwpre : words pre =
      (words ((createChunksAnn S tok text).get ⟨i, hi⟩).content).drop
        ((words ((createChunksAnn S tok text).get ⟨i, hi⟩).content).length -
          min (words ((createChunksAnn S tok text).get
            ⟨i, hi⟩).content).length 50) := by
    rw [hpre, overlapText]
    exact words_joinSp _ hgood
  have hlen : (words pre).length =
      min (words ((createChunksAnn S tok text).get
        ⟨i, hi⟩).content).length 50 := by
    rw [hwpre, List.length_drop]
    omega
  rw [hw2, List.take_left' hlen, hwpre]

/-- Witness for C3: with chunk size 4, the degraded-mode counter and document
`"a b\n\nc d"`, the second chunk is overlap-seeded and starts with the two
words of the first chunk. -/
theorem create_chunks_overlap_seed_witness :
    (words ((createChunksAnn 4 count_tokens_fallback txtTwoParas).getD
        (0 + 1) dfltChunk).content).take
        (min (words ((createChunksAnn 4 count_tokens_fallback txtTwoParas).getD 0
          dfltChunk).content).length 50) =
      (words ((createChunksAnn 4 count_tokens_fallback txtTwoParas).getD 0
          dfltChunk).content).drop
        ((words ((createChunksAnn 4 count_tokens_fallback txtTwoParas).getD 0
            dfltChunk).content).length -
          min (words ((createChunksAnn 4 count_tokens_fallback txtTwoParas).getD 0
            dfltChunk).content).length 50) :=
  create_chunks_overlap_seed 4 count_tokens_fallback txtTwoParas 0
    ['a', ' ', 'b'] (by decide) (by decide)

/-! ### Non-emptiness of the chunk list for non-blank documents -/

theorem mem_joinParas (L : List Str) (c : Char) (hc : c ∈ joinParas L) :
    (∃ p ∈ L, c ∈ p) ∨ c = '\n' := by
  induction L with
  | nil => simp [joinParas] at hc
  | cons p L ih =>
    rcases L with _ | ⟨q, L2⟩
    · exact Or.inl ⟨p, by simp, by simpa [joinParas] using hc⟩
    · rw [joinParas] at hc
      rcases List.mem_append.mp hc with hc | hc
      · exact Or.inl ⟨p, by simp, hc⟩
      · rcases List.mem_cons.mp hc with hc | hc
        · exact Or.inr hc
        · rcases List.mem_cons.mp hc with hc | hc
          · exact Or.inr hc
          · rcases ih hc with ⟨p2, hp2, hcp2⟩ | hc
            · exact Or.inl ⟨p2, List.mem_cons_of_mem _ hp2, hcp2⟩
            · exact Or.inr hc

theorem piecesOf_ne_nil (S : Nat) (tok : Str → Nat) (text : Str)
    (h : trim text ≠ []) : piecesOf S tok text ≠ [] := by
  have hex : ∃ p ∈ splitPara text, trim p ≠ [] := by
    by_contra hall
    push_neg at hall
    apply h
    rw [trim_eq_nil_iff]
    intro c hc
    rw [← splitPara_join text] at hc
    rcases mem_joinParas _ c hc with ⟨p, hp, hcp⟩ | hc
    · have := hall p hp
      rw [trim_eq_nil_iff] at this
      exact this c hcp
    · rw [hc]; rfl
  obtain ⟨p, hp, hpne⟩ := hex
  have hpiece : pieceListOf S tok p ≠ [] := by
    rw [pieceListOf, if_neg hpne]
    by_cases hbig : tok (trim p) > S
    · rw [if_pos hbig]
      obtain ⟨c, hcp, hcw⟩ := exists_nonWS_of_trim_ne_nil p hpne
      exact split_into_sentences_ne_nil (trim p) ⟨c, hcp, hcw⟩
    · rw [if_neg hbig]
      simp
  obtain ⟨x, hx⟩ := List.exists_mem_of_ne_nil _ hpiece
  have : x ∈ piecesOf S tok text := by
    rw [piecesOf]
    exact List.mem_flatMap.mpr ⟨p, hp, hx⟩
  exact List.ne_nil_of_mem this

theorem create_chunks_ne_nil (S : Nat) (tok : Str → Nat) (text : Str)
    (h : trim text ≠ []) : create_chunks S tok text ≠ [] := by
  rw [create_chunks_eq_ann]
  intro hc
  rw [List.map_eq_nil_iff] at hc
  have hp := ann_pieces_complete S tok text
  rw [hc] at hp
  simp only [List.map_nil, List.flatten_nil] at hp
  exact piecesOf_ne_nil S tok text h hp.symm

/-! ### Enumeration lemmas for the metadata pass -/

theorem enumFrom_length (n : Nat) (l : List α) :
    (enumFrom n l).length = l.length := by
  induction l generalizing n with
  | nil => rfl
  | cons x xs ih => simp [enumFrom, ih]

theorem enumFrom_map_getD (n : Nat) (l : List α) (f : Nat × α → β) (d : β) :
    ∀ i, (hi : i < l.length) →
      ((enumFrom n l).map f).getD i d = f (n + i, l.get ⟨i, hi⟩) := by
  induction l generalizing n with
  | nil => intro i hi; simp at hi
  | cons x xs ih =>
    intro i hi
    rcases i with _ | i
    · simp [enumFrom, List.getD]
    · have := ih (n + 1) i (by simpa using Nat.lt_of_succ_lt_succ hi)
      simp only [enumFrom, List.map_cons, List.getD_cons_succ, this,
        List.get_cons_succ]
      congr 2
      omega

theorem enumFrom_map_snd (n : Nat) (l : List α) :
    (enumFrom n l).map (fun ic => ic.2) = l := by
  induction l generalizing n with
  | nil => rfl
  | cons x xs ih => simp [enumFrom, ih]

/-! ### Claim theorems: ingestion (C8, C9) -/

/-- C8: `process_file` fails with the `NotFound` error when the path is
missing, with the `EmptyInput` error when the file is blank — in both cases
returning no chunk list — and succeeds on every existing non-blank file,
returning one `content`/`metadata` record per chunk of the file's content. -/
theorem process_file_failure_modes (S : Nat) (tok : Str → Nat)
    (fs : Str → Option Str) (fresh : Nat → Str) (path : Str) :
    (fs path = none →
      process_file S tok fs fresh path = Except.error ProcErr.notFound) ∧
    (∀ content, fs path = some content → trim content = [] →
      process_file S tok fs fresh path = Except.error ProcErr.emptyInput) ∧
    (∀ content, fs path = some content → trim content ≠ [] →
      ∃ l, process_file S tok fs fresh path = Except.ok l ∧
        l.map (fun cd => cd.content) = create_chunks S tok content) := by
  refine ⟨?_, ?_, ?_⟩
  · intro hnone
    simp [process_file, read_file, hnone]
  · intro content hsome hblank
    simp [process_file, read_file, hsome, hblank]
  · intro content hsome hnb
    have hchunks : create_chunks S tok content ≠ [] :=
      create_chunks_ne_nil S tok content hnb
    have hne : ((enumFrom 0 (create_chunks S tok content)).map
        (fun ic => ChunkData.mk ic.2
          (create_chunk_metadata tok (fresh ic.1) ic.2 ic.1 path))) ≠ [] := by
      intro hcon
      have hlen := congrArg List.length hcon
      rw [List.length_map, enumFrom_length] at hlen
      exact hchunks (List.eq_nil_of_length_eq_zero hlen)
    have hkey : process_file S tok fs fresh path =
        Except.ok ((enumFrom 0 (create_chunks S tok content)).map
          (fun ic => ChunkData.mk ic.2
            (create_chunk_metadata tok (fresh ic.1) ic.2 ic.1 path))) := by
      simp [process_file, read_file, hsome, hnb, List.isEmpty_iff, hne]
    refine ⟨_, hkey, ?_⟩
    rw [List.map_map]
    exact enumFrom_map_snd 0 _

/-- Witness for C8 on the sample filesystem: a missing path, a blank file and
a non-blank file. -/
theorem process_file_failure_modes_witness :
    process_file 8 count_tokens_fallback sampleFs (fun _ => []) ['c'] =
        Except.error ProcErr.notFound ∧
    process_file 8 count_tokens_fallback sampleFs (fun _ => []) ['b'] =
        Except.error ProcErr.emptyInput ∧
    ∃ l, process_file 8 count_tokens_fallback sampleFs (fun _ => []) ['a'] =
        Except.ok l ∧
      l.map (fun cd => cd.content) = create_chunks 8 count_tokens_fallback ['x'] :=
  ⟨(process_file_failure_modes 8 count_tokens_fallback sampleFs
      (fun _ => []) ['c']).1 (by decide),
   (process_file_failure_modes 8 count_tokens_fallback sampleFs
      (fun _ => []) ['b']).2.1 [' '] (by decide) (by decide),
   (process_file_failure_modes 8 count_tokens_fallback sampleFs
      (fun _ => []) ['a']).2.2 ['x'] (by decide) (by decide)⟩

/-- C9: on every successful `process_file` run, `chunk_id` values form the
contiguous 0-based emission-order sequence, and the `tokens` and `characters`
metadata of each record are recomputed from that record's exact content. -/
theorem process_file_metadata_exact (S : Nat) (tok : Str → Nat)
    (fs : Str → Option Str) (fresh : Nat → Str) (path : Str)
    (l : List ChunkData)
    (hok : process_file S tok fs fresh path = Except.ok l) (i : Nat)
    (hi : i < l.length) :
    (l.getD i dfltChunkData).metadata.chunk_id = i ∧
    (l.getD i dfltChunkData).metadata.tokens =
      tok (l.getD i dfltChunkData).content ∧
    (l.getD i dfltChunkData).metadata.characters =
      (l.getD i dfltChunkData).content.length := by
  rcases hrf : read_file fs path with e | content
  · simp [process_file, hrf] at hok
  · simp only [process_file, hrf] at hok
    split_ifs at hok with hemp
    have hl : l = (enumFrom 0 (create_chunks S tok content)).map
        (fun ic => ChunkData.mk ic.2
          (create_chunk_metadata tok (fresh ic.1) ic.2 ic.1 path)) :=
      (Except.ok.inj hok).symm
    subst hl
    have hi2 : i < (create_chunks S tok content).length := by
      rw [List.length_map, enumFrom_length] at hi
      exact hi
    rw [enumFrom_map_getD 0 _ _ _ i hi2]
    refine ⟨by simp [create_chunk_metadata], rfl, rfl⟩

/-- Witness for C9: the single chunk of the sample file carries `chunk_id` 0
and freshly computed token and character counts. -/
theorem process_file_metadata_exact_witness :
    ((([ChunkData.mk ['x'] ⟨[], 0, ['a'], ['a'], 2, 1⟩] : List ChunkData).getD 0
        dfltChunkData).metadata.chunk_id = 0) ∧
    ((([ChunkData.mk ['x'] ⟨[], 0, ['a'], ['a'], 2, 1⟩] : List ChunkData).getD 0
        dfltChunkData).metadata.tokens =
      count_tokens_fallback
        ((([ChunkData.mk ['x'] ⟨[], 0, ['a'], ['a'], 2, 1⟩] :
          List ChunkData).getD 0 dfltChunkData).content)) ∧
    ((([ChunkData.mk ['x'] ⟨[], 0, ['a'], ['a'], 2, 1⟩] : List ChunkData).getD 0
        dfltChunkData).metadata.characters =
      ((([ChunkData.mk ['x'] ⟨[], 0, ['a'], ['a'], 2, 1⟩] :
        List ChunkData).getD 0 dfltChunkData).content).length) :=
  process_file_metadata_exact 8 count_tokens_fallback sampleFs (fun _ => [])
    ['a'] [ChunkData.mk ['x'] ⟨[], 0, ['a'], ['a'], 2, 1⟩] (by rfl) 0
    (by decide)

/-! ### Claim theorems: vector database (C5, C6, C7, C10) -/

/-- C5: a whitespace-only (or empty) query short-circuits
`search_similar_documents` to the empty result, no matter the store state,
the embedding backend or the requested result count. -/
theorem search_blank_query_empty
    (embed : List Str → Except Unit (List (List Rat)))
    (collQuery : List Rat → Nat → Except Unit RawQueryResult)
    (count : Nat) (query : Str) (k : Nat)
    (h : ∀ c ∈ query, isWS c = true) :
    search_similar_documents embed collQuery count query k =
      SearchOut.mk [] [] [] := by
  rw [search_similar_documents, if_pos ((trim_eq_nil_iff query).mpr h)]

/-- Witness for C5: a one-space query against failing backends. -/
theorem search_blank_query_empty_witness :
    search_similar_documents (fun _ => Except.error ())
      (fun _ _ => Except.error ()) 3 [' '] 5 = SearchOut.mk [] [] [] :=
  search_blank_query_empty (fun _ => Except.error ())
    (fun _ _ => Except.error ()) 3 [' '] 5 (by decide)

/-- C6: `search_similar_documents` collapses every internal failure to the
empty result instead of raising: a failing embedding call, a failing store
query, and the zero-record store (under the store contract that a
zero-result query reports nothing) all yield the empty result. -/
theorem search_never_raises
    (embed : List Str → Except Unit (List (List Rat)))
    (collQuery : List Rat → Nat → Except Unit RawQueryResult)
    (count : Nat) (query : Str) (k : Nat)
    (h : embed [query] = Except.error () ∨
      (∃ qe t, embed [query] = Except.ok (qe :: t) ∧
        collQuery qe (min k count) = Except.error ()) ∨
      (count = 0 ∧ ∀ qe r, collQuery qe 0 = Except.ok r →
        flattenHead r.documents = [] ∧ flattenHead r.metadatas = [] ∧
          flattenHead r.distances = [])) :
    search_similar_documents embed collQuery count query k =
      SearchOut.mk [] [] [] := by
  by_cases hq : trim query = []
  · rw [search_similar_documents, if_pos hq]
  · rcases h with h | ⟨qe, t, hok, herr⟩ | ⟨hcount, hcontract⟩
    · simp [search_similar_documents, hq, h]
    · simp [search_similar_documents, hq, hok, herr]
    · subst hcount
      rcases hemb : embed [query] with _ | embs
      · simp [search_similar_documents, hq, hemb]
      · rcases embs with _ | ⟨qe, t⟩
        · simp [search_similar_documents, hq, hemb]
        · rcases hq2 : collQuery qe 0 with e2 | r
          · simp [search_similar_documents, hq, hemb, Nat.min_zero, hq2]
          · have hr := hcontract qe r hq2
            simp [search_similar_documents, hq, hemb, Nat.min_zero, hq2,
              hr.1, hr.2.1, hr.2.2]

/-- Witness for C6: a failing embedding backend yields the empty result. -/
theorem search_never_raises_witness :
    search_similar_documents (fun _ => Except.error ())
      (fun _ _ => Except.error ()) 7 ['h', 'i'] 5 = SearchOut.mk [] [] [] :=
  search_never_raises (fun _ => Except.error ()) (fun _ _ => Except.error ())
    7 ['h', 'i'] 5 (Or.inl rfl)

/-- C7: `update_document` on an absent id leaves the collection unchanged and
reports the failure value `false` (the store signals `NotFound`, the wrapper
converts it to its boolean outcome); on a present id, with the embedding
computed, it replaces that record's content, vector and metadata. -/
theorem update_document_spec
    (embed : List Str → Except Unit (List (List Rat)))
    (c : Collection) (doc_id : Str) (content : Str) (md : Metadata) :
    ((∀ r ∈ c, r.id ≠ doc_id) →
      update_document embed c doc_id content md = (c, false)) ∧
    (∀ e t, embed [content] = Except.ok (e :: t) →
      (∃ r ∈ c, r.id = doc_id) →
      update_document embed c doc_id content md =
        (c.map (fun r => if r.id = doc_id then VRecord.mk doc_id content e md
          else r), true)) := by
  constructor
  · intro habs
    have hno : c.any (fun r => r.id = doc_id) = false := by
      simp only [List.any_eq_false, decide_eq_true_eq]
      exact habs
    rcases hemb : embed [content] with _ | embs
    · simp [update_document, hemb]
    · rcases embs with _ | ⟨e, t⟩
      · simp [update_document, hemb]
      · simp [update_document, hemb, collectionUpdate, hno]
  · intro e t hemb hpres
    have hyes : c.any (fun r => r.id = doc_id) = true := by
      rw [List.any_eq_true]
      obtain ⟨r, hr, hid⟩ := hpres
      exact ⟨r, hr, by simp [hid]⟩
    simp [update_document, hemb, collectionUpdate, hyes]

/-- Witness for C7 on the one-record sample collection: an absent id is
rejected with `false` and no change; the present id is replaced. -/
theorem update_document_spec_witness :
    update_document (fun _ => Except.ok [[(1 : Rat)]]) sampleCollection
        ['y'] ['n'] dfltMeta = (sampleCollection, false) ∧
    update_document (fun _ => Except.ok [[(1 : Rat)]]) sampleCollection
        ['x'] ['n'] dfltMeta =
      (sampleCollection.map (fun r => if r.id = ['x'] then
        VRecord.mk ['x'] ['n'] [(1 : Rat)] dfltMeta else r), true) :=
  ⟨(update_document_spec (fun _ => Except.ok [[(1 : Rat)]]) sampleCollection
      ['y'] ['n'] dfltMeta).1 (by decide),
   (update_document_spec (fun _ => Except.ok [[(1 : Rat)]]) sampleCollection
      ['x'] ['n'] dfltMeta).2 [(1 : Rat)] [] rfl (by decide)⟩

/-- C10: `add_documents` with an empty chunk list reports `false` — the same
value used for failures — and leaves the collection untouched, before any
embedding or store call happens. -/
theorem add_documents_empty_input
    (embed : List Str → Except Unit (List (List Rat))) (c : Collection) :
    add_documents embed c [] = (c, false) := rfl
